import Mathlib

/-!
Verification of the `polynomials` crate: a univariate polynomial library whose
state is an ordered map from exponent (`u32`) to a nonzero coefficient.

The repository contains two generations of the code:
* `src/lib.rs` — the legacy single-file version (`HashMap<u32, f64>` store,
  `from_string` parser with a reconstruction check, unchecked `Div<f64>`);
* `src/polynomial.rs` with its submodules — the current generic version
  (`BTreeMap<u32, T>` store, generic `from_str` parser, checked division).

We shallowly embed both where claims refer to them.  A polynomial is modelled
as an association list sorted by strictly ascending exponent — the iteration
order of a `BTreeMap` (for the legacy `HashMap` the model is the canonical
sorted form of the map, which is faithful for map equality and for every
operation the claims mention, none of which depend on `HashMap` iteration
order).  Exact arithmetic (`ℚ`, `ℤ`) stands in for `f64`, matching the spec's
generic numeric-domain reading.
-/

set_option maxHeartbeats 1000000
set_option linter.unusedSectionVars false
set_option linter.unusedVariables false

namespace PolyLib

/-- The coefficient store: exponent/coefficient pairs in ascending exponent
order, mirroring `Polynomial<T> { coefficients: BTreeMap<u32, T> }`. -/
abbrev Poly (α : Type) : Type := List (Nat × α)

section CoreDefs

variable {α : Type} [CommRing α] [DecidableEq α]

/-- `Polynomial::zero` — the empty map. -/
def zeroPoly : Poly α := []

/-- `Polynomial::is_zero` — the map is empty. -/
def isZero (p : Poly α) : Bool := p.isEmpty

/-- `Polynomial::degree` — the maximum key of the map (`None` when empty).
On the ascending model the maximum key is the last entry's key. -/
def degOpt (p : Poly α) : Option Nat := p.getLast?.map Prod.fst

/-- Insertion into the sorted store (`BTreeMap::insert`), overwriting an
existing entry with the same key. -/
def insertEntry (k : Nat) (c : α) : Poly α → Poly α
  | [] => [(k, c)]
  | e :: rest =>
    if k < e.1 then (k, c) :: e :: rest
    else if k = e.1 then (k, c) :: rest
    else e :: insertEntry k c rest

/-- Removal from the store (`BTreeMap::remove`). -/
def removeEntry (k : Nat) : Poly α → Poly α
  | [] => []
  | e :: rest => if k = e.1 then rest else e :: removeEntry k rest

/-- `get_coefficient_at` — the stored value, or zero when absent. -/
def getCoefficientAt (p : Poly α) (k : Nat) : α :=
  match p with
  | [] => 0
  | e :: rest => if e.1 = k then e.2 else getCoefficientAt rest k

/-- `set_coefficient_at` — a zero coefficient removes the entry, any other
value is inserted/overwritten.  This is the sparsity-maintaining mutator. -/
def setCoefficientAt (p : Poly α) (k : Nat) (c : α) : Poly α :=
  if c = 0 then removeEntry k p else insertEntry k c p

/-- `add_coefficient_at` — read-modify-write through `get`/`set`. -/
def addCoefficientAt (p : Poly α) (k : Nat) (c : α) : Poly α :=
  setCoefficientAt p k (getCoefficientAt p k + c)

/-- `sub_coefficient_at`. -/
def subCoefficientAt (p : Poly α) (k : Nat) (c : α) : Poly α :=
  setCoefficientAt p k (getCoefficientAt p k - c)

/-- `mul_coefficient_at`. -/
def mulCoefficientAt (p : Poly α) (k : Nat) (c : α) : Poly α :=
  setCoefficientAt p k (getCoefficientAt p k * c)

/-- The store invariant I2: strictly ascending exponents (so each exponent
occurs at most once), which is what `BTreeMap` guarantees by construction. -/
def PolySorted (p : Poly α) : Prop := p.Pairwise (fun a b => a.1 < b.1)

/-- The store invariant I1 (sparsity): no stored coefficient is zero. -/
def NoZeros (p : Poly α) : Prop := ∀ e ∈ p, e.2 ≠ 0

/-- Both representation invariants together. -/
def PolyInv (p : Poly α) : Prop := PolySorted p ∧ NoZeros p

instance (p : Poly α) : Decidable (PolySorted p) := by
  unfold PolySorted; infer_instance

instance (p : Poly α) : Decidable (NoZeros p) := by
  unfold NoZeros; infer_instance

instance (p : Poly α) : Decidable (PolyInv p) := by
  unfold PolyInv; infer_instance

/-- The exponent/coefficient pairing of `from_coefficients`:
`(0..len).rev().zip(coefficients.iter())` pairs powers `len-1, len-2, …, 0`
with the vector entries in order. -/
def descPairs : Nat → List α → List (Nat × α)
  | _, [] => []
  | k, c :: rest => (k, c) :: descPairs (k - 1) rest

/-- `from_coefficients` — set each vector entry at its descending power. -/
def fromCoefficients (v : List α) : Poly α :=
  (descPairs (v.length - 1) v).foldl (fun p kc => setCoefficientAt p kc.1 kc.2) zeroPoly

/-- The `get_coefficients` walk: highest power first, re-inserting the skipped
intermediate zeros; once the stored terms are exhausted, the final
`last_x_power` zeros for the trailing low-order terms are appended. -/
def getCoefficientsGo : Option Nat → List (Nat × α) → List α
  | last, [] =>
    match last with
    | some k => if 0 < k then List.replicate k 0 else []
    | none => []
  | last, (power, c) :: rest =>
    (match last with
     | some lp => List.replicate (lp - power - 1) 0
     | none => []) ++ c :: getCoefficientsGo (some power) rest

/-- `get_coefficients` — the dense vector, highest power first. -/
def getCoefficients (p : Poly α) : List α := getCoefficientsGo none p.reverse

/-- The loop of `evaluate` (sparse Horner): on each stored term, first multiply
the accumulator by `x` raised to the gap from the previously visited exponent,
then add the coefficient.  Note the loop performs no final multiplication
after the last (lowest-exponent) term — exactly as in the source. -/
def evaluateGo (x : α) : List (Nat × α) → α → Option Nat → α
  | [], result, _ => result
  | (power, c) :: rest, result, lastPow =>
    evaluateGo x rest
      ((match lastPow with
        | some lp => result * x ^ (lp - power)
        | none => result) + c)
      (some power)

/-- `evaluate` — traverse stored terms from highest to lowest exponent. -/
def evaluate (p : Poly α) (x : α) : α := evaluateGo x p.reverse 0 none

/-- Specification-side definition: naive power-sum evaluation
`Σ coefficient * x^power` over the stored terms (what the spec says
`evaluate` computes). -/
def naiveEval (p : Poly α) (x : α) : α := (p.map fun kc => kc.2 * x ^ kc.1).sum

/-- `derivative` — every term of exponent `p ≥ 1` contributes coefficient
`c * p` at exponent `p - 1`; the exponent-0 term is skipped. -/
def derivative (p : Poly α) : Poly α :=
  p.foldl
    (fun acc kc =>
      if kc.1 < 1 then acc
      else setCoefficientAt acc (kc.1 - 1) (kc.2 * (kc.1 : α)))
    zeroPoly

/-- Folding a list of `(exponent, coefficient)` contributions into a store via
`add_coefficient_at` — the common shape of `add_in_place`, the convolution
loop of `multiply`, and the parser's accumulation loop. -/
def foldAddTerms (p : Poly α) (ts : List (Nat × α)) : Poly α :=
  ts.foldl (fun a kc => addCoefficientAt a kc.1 kc.2) p

/-- `add_in_place` / `Add` — term-wise `add_coefficient_at` of the right
operand's entries into the left operand. -/
def addPoly (p q : Poly α) : Poly α := foldAddTerms p q

/-- `subtract_in_place` / `Sub`. -/
def subPoly (p q : Poly α) : Poly α :=
  q.foldl (fun a kc => subCoefficientAt a kc.1 kc.2) p

/-- `multiply` — the full convolution: for every pair of stored terms,
accumulate `c1*c2` at exponent `p1+p2` via `add_coefficient_at`. -/
def mulPoly (p q : Poly α) : Poly α :=
  p.foldl
    (fun acc kc1 =>
      q.foldl (fun acc2 kc2 => addCoefficientAt acc2 (kc1.1 + kc2.1) (kc1.2 * kc2.2)) acc)
    zeroPoly

/-- `multiply_in_place_by_scalar` — zero scalar short-circuits to the zero
polynomial, otherwise every coefficient is multiplied in place. -/
def mulScalar (p : Poly α) (s : α) : Poly α :=
  if s = 0 then zeroPoly else p.map fun kc => (kc.1, kc.2 * s)

/-- `Neg` — multiply every coefficient in place by `-1`. -/
def negPoly (p : Poly α) : Poly α := p.map fun kc => (kc.1, kc.2 * (-1))

/-- Sum of the contributions a term list makes at one exponent. -/
def sumAt : List (Nat × α) → Nat → α
  | [], _ => 0
  | kc :: rest, e => (if kc.1 = e then kc.2 else 0) + sumAt rest e

/-- The entries with nonzero coefficient, in order — what a sequence of
`set_coefficient_at` calls actually stores. -/
def filterNZ (l : List (Nat × α)) : List (Nat × α) :=
  l.filter fun kc => decide (kc.2 ≠ 0)

/-- The terms contributed by one left-hand entry in the convolution loop of
`multiply`: every right-hand entry shifted by the left exponent and scaled by
the left coefficient. -/
def shiftTerms (kc1 : Nat × α) (q : List (Nat × α)) : List (Nat × α) :=
  q.map fun kc2 => (kc1.1 + kc2.1, kc1.2 * kc2.2)

/-- The total convolution contribution at an exponent. -/
def convSum (p q : List (Nat × α)) (m : Nat) : α :=
  (p.map fun kc1 => sumAt (shiftTerms kc1 q) m).sum

end CoreDefs

section DivisionDefs

variable {α : Type} [Field α] [DecidableEq α]

/-- `div_coefficient_at` — read-modify-write division at one power. -/
def divCoefficientAt (p : Poly α) (k : Nat) (c : α) : Poly α :=
  setCoefficientAt p k (getCoefficientAt p k / c)

/-- `divide_by_scalar_in_place` (division.rs) — checked: panics (`none`) on a
zero scalar, otherwise divides every coefficient in place. -/
def divideByScalarInPlace (p : Poly α) (s : α) : Option (Poly α) :=
  if s = 0 then none else some (p.map fun kc => (kc.1, kc.2 / s))

/-- The legacy `Div<f64>`/`DivAssign<f64>` of lib.rs — unchecked: divides every
coefficient in place with no zero test and no failure path. -/
def oldDivScalar (p : Poly α) (s : α) : Poly α := p.map fun kc => (kc.1, kc.2 / s)

/-- `leading_term` — degree (unwrapped) and the coefficient stored there. -/
def leadingTermP (p : Poly α) : Nat × α :=
  ((degOpt p).getD 0, getCoefficientAt p ((degOpt p).getD 0))

/-- `divide_terms` — the single-term quotient of two leading terms. -/
def divideTerms (t1 t2 : Nat × α) : Poly α :=
  setCoefficientAt zeroPoly (t1.1 - t2.1) (t1.2 / t2.2)

/-- The `while` loop of `divide_in_place`: while the remainder is nonzero and
`degree(R) ≥ degree(D)`, add `leading(R)/leading(D)` to the quotient and
subtract its product with `D` from the remainder.  `fuel` is the usual
shallow-embedding termination device; `dividePoly` supplies enough. -/
def divideLoop (D : Poly α) : Nat → Poly α → Poly α → Option (Poly α × Poly α)
  | 0, _, _ => none
  | fuel + 1, R, Q =>
    if R = [] then some (Q, R)
    else if (degOpt R).getD 0 < (degOpt D).getD 0 then some (Q, R)
    else
      divideLoop D fuel
        (subPoly R (mulPoly (divideTerms (leadingTermP R) (leadingTermP D)) D))
        (addPoly Q (divideTerms (leadingTermP R) (leadingTermP D)))

/-- `divide_in_place` / `Div<&Self>` — fail on the zero divisor polynomial
(before touching the numerator), then run the long-division loop; the result
bundles quotient and remainder like `PolynomialDivisionResult`. -/
def dividePoly (N D : Poly α) : Option (Poly α × Poly α) :=
  if D = [] then none else divideLoop D ((degOpt N).getD 0 + 2) N zeroPoly

end DivisionDefs

section TextDefs

/-! ### Characters, digit strings and numeric literals

Shallow models of the character-level machinery used by the two parsers
(`from_string` in lib.rs, `FromStr::from_str` in polynomial/parsing.rs) and
the renderer (`write_to_fmt` in polynomial/display.rs).  The two regular
expressions are embedded as deterministic greedy matchers — faithful to the
regex crate's leftmost-first semantics, which never needs backtracking here
because every piece after an optional atom is itself optional (the only
data-dependent choices, `\^?\{?` before exponent digits, are resolved exactly
as priority-first matching does). -/

/-- Rust `char::is_whitespace` — the Unicode `White_Space` property. -/
def rustWhitespace (c : Char) : Bool :=
  c.toNat = 0x09 || c.toNat = 0x0A || c.toNat = 0x0B || c.toNat = 0x0C ||
  c.toNat = 0x0D || c.toNat = 0x20 || c.toNat = 0x85 || c.toNat = 0xA0 ||
  c.toNat = 0x1680 || (0x2000 ≤ c.toNat && c.toNat ≤ 0x200A) ||
  c.toNat = 0x2028 || c.toNat = 0x2029 || c.toNat = 0x202F ||
  c.toNat = 0x205F || c.toNat = 0x3000

/-- The old pattern's interior-whitespace class `[ \n]`. -/
def isSpaceNl (c : Char) : Bool := c = ' ' || c = '\n'

/-- The generic pattern's coefficient character class: digits, `.`, `i`, `j`,
`+`, `-`, `/`. -/
def coefClassCh (c : Char) : Bool :=
  c.isDigit || c = '.' || c = 'i' || c = 'j' || c = '+' || c = '-' || c = '/'

/-- Decimal digit characters (for `{}` formatting of a nonnegative integer). -/
def digitChar : Nat → Char
  | 0 => '0' | 1 => '1' | 2 => '2' | 3 => '3' | 4 => '4'
  | 5 => '5' | 6 => '6' | 7 => '7' | 8 => '8' | _ => '9'

/-- Value of a digit character. -/
def digitVal (c : Char) : Nat := c.toNat - 48

/-- Fuel-driven decimal rendering of a natural number (most significant digit
first); `natDigits` supplies enough fuel for every digit. -/
def natDigitsAux : Nat → Nat → List Char
  | _, 0 => []
  | n, fuel + 1 =>
    if n < 10 then [digitChar n]
    else natDigitsAux (n / 10) fuel ++ [digitChar (n % 10)]

/-- Decimal rendering of a natural number, as Rust's `{}` formatting of an
unsigned integer produces it. -/
def natDigits (n : Nat) : List Char := natDigitsAux n (n + 1)

/-- Left fold of decimal digits, as `str::parse::<u32>` accumulates them. -/
def parseNatAcc : Nat → List Char → Nat
  | acc, [] => acc
  | acc, c :: rest => parseNatAcc (acc * 10 + digitVal c) rest

/-- Value of a digit string. -/
def parseNatDigits (cs : List Char) : Nat := parseNatAcc 0 cs

/-- Model of `<BigInt/iN as FromStr>::from_str` on the reachable alphabet:
an optional sign followed by a nonempty run of digits. -/
def parseIntLit (cs : List Char) : Option ℤ :=
  match cs with
  | [] => none
  | c :: rest =>
    if c = '+' then
      (if rest ≠ [] ∧ rest.all Char.isDigit then some (parseNatDigits rest : ℤ) else none)
    else if c = '-' then
      (if rest ≠ [] ∧ rest.all Char.isDigit then some (-(parseNatDigits rest : ℤ)) else none)
    else
      (if (c :: rest).all Char.isDigit then some (parseNatDigits (c :: rest) : ℤ) else none)

/-- Unsigned decimal mantissa of `<f64 as FromStr>::from_str`, restricted to
the alphabet the coefficient class can produce (no exponent letter, no
`inf`/`NaN` words are reachable): `digits`, `digits.digits*`, or `.digits+`,
with at least one digit overall.  Exact rational value. -/
def parseDecMantissa (cs : List Char) : Option ℚ :=
  let intPart := cs.takeWhile Char.isDigit
  let rest := cs.drop intPart.length
  match rest with
  | [] => if intPart = [] then none else some (parseNatDigits intPart : ℚ)
  | '.' :: frac =>
    if frac.all Char.isDigit ∧ (intPart ≠ [] ∨ frac ≠ []) then
      some ((parseNatDigits intPart : ℚ) + (parseNatDigits frac : ℚ) / 10 ^ frac.length)
    else none
  | _ => none

/-- Model of `<f64 as FromStr>::from_str` on the reachable alphabet. -/
def parseF64Lit (cs : List Char) : Option ℚ :=
  match cs with
  | '+' :: rest => parseDecMantissa rest
  | '-' :: rest => (parseDecMantissa rest).map Neg.neg
  | _ => parseDecMantissa cs

/-! ### The generic parser (`polynomial/parsing.rs`)

Term pattern:
an optional signed opening bracket, an optional run of coefficient-class
characters, an optional closing bracket, optional `*`, optional `x`, and an
optional exponent group (optional caret, optional brace, digits, optional
closing brace)
-/

/-- The capture groups of one term-pattern match. -/
structure TermCaps where
  bracketSign : Option Bool
  openingBracket : Bool
  coefficient : Option (List Char)
  closingBracket : Bool
  indeterminate : Bool
  exponent : Option (List Char)
deriving DecidableEq, Repr

/-- Match a single optional literal character (the `\)?`, `\*?`, `x?`, `\^?`,
`\{?`, `\}?` atoms): consume it when it is next, else consume nothing. -/
def matchCharStage (ch : Char) (s : List Char) : Bool × List Char :=
  match s with
  | c :: rest => if c = ch then (true, rest) else (false, s)
  | [] => (false, [])

/-- The optional signed-opening-bracket group
(`(bracket_sign? opening_bracket)?`): `(`, or a sign directly followed by
`(`; anything else leaves the input untouched. -/
def matchBracketStage (s : List Char) : (Option Bool × Bool) × List Char :=
  match s with
  | [] => ((none, false), [])
  | c :: rest =>
    if c = '(' then ((none, true), rest)
    else
      match rest with
      | [] => ((none, false), c :: rest)
      | c2 :: rest2 =>
        if c2 = '(' then
          if c = '+' then ((some true, true), rest2)
          else if c = '-' then ((some false, true), rest2)
          else ((none, false), c :: rest)
        else ((none, false), c :: rest)

/-- Greedy match of the term pattern at the head of `s`; every atom is
optional, so a (possibly empty) match exists at every position.  Returns the
captures and the unconsumed suffix. -/
def matchTermAt (s : List Char) : TermCaps × List Char :=
  let br := matchBracketStage s
  let coefChars := br.2.takeWhile coefClassCh
  let s2 := br.2.drop coefChars.length
  let coef := if coefChars = [] then none else some coefChars
  let cBr := matchCharStage ')' s2
  let st := matchCharStage '*' cBr.2
  let ind := matchCharStage 'x' st.2
  let t1 := matchCharStage '^' ind.2
  let t2 := matchCharStage '\x7b' t1.2
  let ds := t2.2.takeWhile Char.isDigit
  if ds = [] then
    (⟨br.1.1, br.1.2, coef, cBr.1, ind.1, none⟩, ind.2)
  else
    let t3 := t2.2.drop ds.length
    let t4 := matchCharStage '\x7d' t3
    (⟨br.1.1, br.1.2, coef, cBr.1, ind.1, some ds⟩, t4.2)

/-- The `captures_iter` protocol of the regex crate: successive non-overlapping
matches; after an empty match the search advances one character, and an empty
match starting exactly at the previous match's end is not yielded. -/
def termIterGo (s : List Char) : Nat → Nat → Option Nat → List TermCaps
  | 0, _, _ => []
  | fuel + 1, lastEnd, lastMatch =>
    if s.length < lastEnd then []
    else
      let mr := matchTermAt (s.drop lastEnd)
      let consumed := (s.drop lastEnd).length - mr.2.length
      let e := lastEnd + consumed
      if consumed = 0 then
        if some e = lastMatch then termIterGo s fuel (e + 1) lastMatch
        else mr.1 :: termIterGo s fuel (e + 1) (some e)
      else mr.1 :: termIterGo s fuel e (some e)

/-- All term-pattern captures over a string. -/
def termCapsList (s : List Char) : List TermCaps := termIterGo s (s.length + 2) 0 none

end TextDefs

section ParserDefs

variable {α : Type} [CommRing α] [DecidableEq α]

/-- The body of `from_str`'s `for caps in …` loop: the unbalanced-bracket
check, the bracket sign, the three-way coefficient rule (`"+"` ↦ one,
`"-"` ↦ minus one, otherwise the domain's literal parser), and the exponent
defaulting (absent: 1 with an indeterminate, 0 without). -/
def evalTermCaps (parseCoef : List Char → Option α) (caps : TermCaps) :
    Option (Nat × α) :=
  if caps.openingBracket ≠ caps.closingBracket then none
  else
    let bracketPositive := match caps.bracketSign with
      | some b => b
      | none => true
    let coefficient? : Option α :=
      match caps.coefficient with
      | none => some 1
      | some cs =>
        if cs = ['+'] then some 1
        else if cs = ['-'] then some (-1)
        else parseCoef cs
    match coefficient? with
    | none => none
    | some c0 =>
      let c := if bracketPositive then c0 else -c0
      let exponent : Nat :=
        match caps.exponent with
        | some ds => parseNatDigits ds
        | none => if caps.indeterminate then 1 else 0
      some (exponent, c)

/-- The matched terms of `from_str`, in scan order. -/
def fromStrTerms (parseCoef : List Char → Option α) (s : List Char) :
    Option (List (Nat × α)) :=
  (termCapsList s).mapM (evalTermCaps parseCoef)

/-- `FromStr::from_str` — strip all whitespace, parse the empty string as the
zero polynomial, otherwise accumulate every matched term with
`add_coefficient_at`. -/
def fromStrGeneric (parseCoef : List Char → Option α) (s : List Char) :
    Option (Poly α) :=
  if s.filter (fun c => !(rustWhitespace c)) = [] then some zeroPoly
  else (fromStrTerms parseCoef (s.filter fun c => !(rustWhitespace c))).map
    (foldAddTerms zeroPoly)

/-- `from_str` at an `f64`-style coefficient domain (exact model `ℚ`). -/
def fromStrQ (s : String) : Option (Poly ℚ) := fromStrGeneric parseF64Lit s.data

/-- `from_str` at an integer coefficient domain (`BigInt`/`iN`). -/
def fromStrZ (s : String) : Option (Poly ℤ) := fromStrGeneric parseIntLit s.data

/-! ### The legacy parser (`lib.rs::from_string`)

Pattern:
`(?<sign>[+-])[ \n]*(?<coefficient>\d+(\.\d*)?)?[ \n]*\*?[ \n]*(?<variable>x)?(?:\^?(?<power>\d+))?`
-/

/-- The capture groups of one legacy-pattern match. -/
structure OldCaps where
  signPlus : Bool
  coefficient : Option (List Char)
  hasVar : Bool
  power : Option (List Char)
deriving DecidableEq, Repr

/-- Greedy match of the legacy pattern just after its mandatory sign;
returns the captures and the unconsumed suffix. -/
def matchOldAt (sign : Char) (s : List Char) : OldCaps × List Char :=
  let s1 := s.dropWhile isSpaceNl
  let digits1 := s1.takeWhile Char.isDigit
  let cr :=
    if digits1 = [] then ((none : Option (List Char)), s1)
    else
      let r := s1.drop digits1.length
      match r with
      | '.' :: r2 =>
        let frac := r2.takeWhile Char.isDigit
        (some (digits1 ++ '.' :: frac), r2.drop frac.length)
      | _ => (some digits1, r)
  let s3 := cr.2.dropWhile isSpaceNl
  let s4 := match s3 with | '*' :: r => r | _ => s3
  let s5 := s4.dropWhile isSpaceNl
  let vr := match s5 with | 'x' :: r => (true, r) | _ => (false, s5)
  let t1 := match vr.2 with | '^' :: r => r | _ => vr.2
  let ds := t1.takeWhile Char.isDigit
  if ds = [] then (⟨sign = '+', cr.1, vr.1, none⟩, vr.2)
  else (⟨sign = '+', cr.1, vr.1, some ds⟩, t1.drop ds.length)

/-- `find_iter` for the legacy pattern: scan to the next `+`/`-`, match
greedily there, record the matched substring, continue after it.  Matches are
never empty (the sign is mandatory), so no empty-match bookkeeping arises. -/
def oldIter : Nat → List Char → List (OldCaps × List Char)
  | 0, _ => []
  | fuel + 1, s =>
    let pre := s.dropWhile fun c => !(c = '+' || c = '-')
    match pre with
    | [] => []
    | c :: rest =>
      let mr := matchOldAt c rest
      (mr.1, c :: rest.take (rest.length - mr.2.length)) :: oldIter fuel mr.2

/-- Rust `str::trim`. -/
def trimRust (l : List Char) : List Char :=
  ((l.dropWhile rustWhitespace).reverse.dropWhile rustWhitespace).reverse

/-- `replace(" ", "").replace("\n", "")` — the comparison normalization. -/
def stripSpaceNl (l : List Char) : List Char := l.filter fun c => !(c = ' ' || c = '\n')

/-- Exact value of a matched legacy coefficient (`\d+(\.\d*)?` always parses
as `f64`; modelled exactly over `ℚ`). -/
def oldDecimalVal (cs : List Char) : ℚ :=
  let intPart := cs.takeWhile Char.isDigit
  let rest := cs.drop intPart.length
  match rest with
  | '.' :: frac => (parseNatDigits intPart : ℚ) + (parseNatDigits frac : ℚ) / 10 ^ frac.length
  | _ => (parseNatDigits intPart : ℚ)

/-- The body of `from_string`'s loop: a term with neither coefficient nor
variable is an error; a missing power is 0 without the variable and 1 with
it; a missing coefficient defaults to one; the sign multiplies in. -/
def oldProcessCaps (caps : OldCaps) : Option (Nat × ℚ) :=
  match caps.coefficient, caps.hasVar with
  | none, false => none
  | coefOpt, hasVar =>
    let power : Nat :=
      match caps.power with
      | some ds => parseNatDigits ds
      | none => if hasVar then 1 else 0
    let c : ℚ :=
      match coefOpt with
      | some cs => oldDecimalVal cs
      | none => 1
    some (power, if caps.signPlus then c else -c)

/-- `lib.rs::from_string` — trim; empty input parses to zero; prepend `"+ "`
to the *untrimmed* input unless the trimmed input already starts with a sign;
scan all matches, **set** (not add) each term's coefficient, and finally
require the concatenated matched substrings to equal the scanned string once
spaces and newlines are removed. -/
def fromString (s : String) : Option (Poly ℚ) :=
  let original := s.data
  let trimmed := trimRust original
  match trimmed with
  | [] => some zeroPoly
  | c :: _ =>
    let work := if c = '+' ∨ c = '-' then trimmed else '+' :: ' ' :: original
    let ms := oldIter (work.length + 1) work
    match ms.mapM (fun m => oldProcessCaps m.1) with
    | none => none
    | some terms =>
      if stripSpaceNl ((ms.map fun m => m.2).flatten) = stripSpaceNl work then
        some (terms.foldl (fun p kc => setCoefficientAt p kc.1 kc.2) zeroPoly)
      else none

/-! ### The renderer (`polynomial/display.rs`), Standard dialect, integers -/

/-- Decimal rendering of `|c|` (Rust `{}` on the absolute value). -/
def intAbsDigits (c : ℤ) : List Char := natDigits c.natAbs

/-- `CoefficientFormat::format_coefficient` as generated by
`impl_coefficient_format_for_simple_type` (f32/f64/iN/BigInt): a leading
negative term opens with `"- "`; every non-leading term gets a ` + `/` - `
separator; the absolute value is elided exactly when it is one and the term
is not the constant term. -/
def formatCoefficientInt (c : ℤ) (isLeading isLast : Prop)
    [Decidable isLeading] [Decidable isLast] : List Char :=
  (if isLeading ∧ c < 0 then ['-', ' ']
   else if ¬ isLeading then [' ', if c < 0 then '-' else '+', ' ']
   else []) ++
  (if ¬ c.natAbs = 1 ∨ isLast then intAbsDigits c else [])

/-- The indeterminate/exponent tail in the Standard dialect: nothing at
exponent 0, `x` at exponent 1, `x^p` above. -/
def xPartStandard (power : Nat) : List Char :=
  if power = 0 then []
  else if power = 1 then ['x']
  else 'x' :: '^' :: natDigits power

/-- `write_to_fmt` (Standard dialect, integer coefficients): `"0"` for the
zero polynomial, otherwise the stored terms from highest to lowest exponent,
each coefficient formatted with its leading/constant-term context flags. -/
def renderStandardZ (p : Poly ℤ) : List Char :=
  match degOpt p with
  | none => ['0']
  | some d =>
    (p.reverse.map fun kc =>
        if kc.2 = 0 then []
        else formatCoefficientInt kc.2 (kc.1 = d) (kc.1 = 0) ++ xPartStandard kc.1).flatten

/-- `format_with(PolynomialFormat::Standard)` / `to_string` as a `String`. -/
def renderStandardZStr (p : Poly ℤ) : String := ⟨renderStandardZ p⟩

/-- The characters a Standard-dialect integer rendering can contain (besides
the stripped spaces): signs, the indeterminate, the caret, digits. -/
def goodChar (ch : Char) : Prop :=
  ch = '+' ∨ ch = '-' ∨ ch = 'x' ∨ ch = '^' ∨ ch.isDigit = true

/-- The whitespace-stripped rendering of one term in the Standard dialect. -/
def chunkStr (c : ℤ) (k : Nat) (isLeading : Prop) [Decidable isLeading] : List Char :=
  (if isLeading ∧ c < 0 then ['-']
   else if ¬ isLeading then [if c < 0 then '-' else '+']
   else []) ++
  (if ¬ c.natAbs = 1 ∨ k = 0 then natDigits c.natAbs else []) ++
  xPartStandard k

/-- The stripped term chunks of a rendering, highest exponent first. -/
def chunksOf (d : Nat) (l : List (Nat × ℤ)) : List (List Char) :=
  l.map fun kc => chunkStr kc.2 kc.1 (kc.1 = d)

/-- Every chunk matches the term pattern exactly at its own position,
yielding the corresponding captures. -/
def ChunksMatch : List (List Char) → List TermCaps → Prop
  | [], [] => True
  | ch :: rest, caps :: capsRest =>
    ch ≠ [] ∧ matchTermAt (ch ++ rest.flatten) = (caps, rest.flatten) ∧
      ChunksMatch rest capsRest
  | _, _ => False

end ParserDefs

section TextTheorems

theorem digitChar_mem (r : Nat) :
    digitChar r ∈ ['0', '1', '2', '3', '4', '5', '6', '7', '8', '9'] := by
  unfold digitChar
  split <;> simp

theorem digit_list_props {c : Char}
    (h : c ∈ ['0', '1', '2', '3', '4', '5', '6', '7', '8', '9']) :
    rustWhitespace c = false ∧ coefClassCh c = true ∧ c.isDigit = true ∧
    c ≠ '+' ∧ c ≠ '-' ∧ c ≠ 'x' ∧ c ≠ '^' ∧ c ≠ '(' ∧ c ≠ ')' ∧ c ≠ '*' ∧
    c ≠ '\x7b' ∧ c ≠ '\x7d' := by
  fin_cases h <;> exact (by decide)

theorem natDigitsAux_mem :
    ∀ (fuel n : Nat) (c : Char), c ∈ natDigitsAux n fuel →
      c ∈ ['0', '1', '2', '3', '4', '5', '6', '7', '8', '9'] := by
  intro fuel
  induction fuel with
  | zero => intro n c h; simp [natDigitsAux] at h
  | succ f ih =>
    intro n c h
    unfold natDigitsAux at h
    split at h
    · simp only [List.mem_singleton] at h
      rw [h]
      exact digitChar_mem n
    · rcases List.mem_append.mp h with h | h
      · exact ih _ _ h
      · simp only [List.mem_singleton] at h
        rw [h]
        exact digitChar_mem (n % 10)

theorem natDigits_mem {n : Nat} {c : Char} (h : c ∈ natDigits n) :
    c ∈ ['0', '1', '2', '3', '4', '5', '6', '7', '8', '9'] :=
  natDigitsAux_mem (n + 1) n c h

theorem natDigits_isDigit {n : Nat} : ∀ c ∈ natDigits n, c.isDigit = true :=
  fun c h => (digit_list_props (natDigits_mem h)).2.2.1

theorem natDigits_ne_nil (n : Nat) : natDigits n ≠ [] := by
  unfold natDigits natDigitsAux
  split
  · simp
  · simp

theorem good_ne {ch : Char} (h : goodChar ch) :
    ch ≠ '(' ∧ ch ≠ ')' ∧ ch ≠ '*' ∧ ch ≠ '\x7b' ∧ ch ≠ '\x7d' ∧ ch ≠ '.' := by
  rcases h with rfl | rfl | rfl | rfl | h
  · exact (by decide)
  · exact (by decide)
  · exact (by decide)
  · exact (by decide)
  · refine ⟨?_, ?_, ?_, ?_, ?_, ?_⟩ <;>
      (intro h'; rw [h'] at h; exact absurd h (by decide))

theorem goodChar_digit {c : Char} (h : c.isDigit = true) : goodChar c :=
  Or.inr (Or.inr (Or.inr (Or.inr h)))

theorem takeWhile_append_all {p : Char → Bool} :
    ∀ {l1 l2 : List Char}, (∀ c ∈ l1, p c = true) →
      (l1 ++ l2).takeWhile p = l1 ++ l2.takeWhile p := by
  intro l1
  induction l1 with
  | nil => intro l2 _; rfl
  | cons c rest ih =>
    intro l2 h
    rw [List.cons_append, List.takeWhile_cons, if_pos (h c (List.mem_cons_self c rest)),
      ih fun c' hc' => h c' (List.mem_cons_of_mem c hc')]
    rfl

theorem takeWhile_nil_of_head {p : Char → Bool} {l : List Char}
    (h : ∀ c, l.head? = some c → p c = false) : l.takeWhile p = [] := by
  cases l with
  | nil => rfl
  | cons c rest =>
    rw [List.takeWhile_cons, if_neg]
    rw [h c rfl]
    simp

theorem matchCharStage_hit (ch : Char) (rest : List Char) :
    matchCharStage ch (ch :: rest) = (true, rest) := by
  simp [matchCharStage]

theorem matchCharStage_miss {ch : Char} {s : List Char}
    (h : ∀ c, s.head? = some c → c ≠ ch) : matchCharStage ch s = (false, s) := by
  cases s with
  | nil => rfl
  | cons c rest =>
    simp only [matchCharStage]
    rw [if_neg (h c rfl)]

theorem matchBracketStage_skip {s : List Char} (hgood : ∀ ch ∈ s, goodChar ch) :
    matchBracketStage s = ((none, false), s) := by
  cases s with
  | nil => rfl
  | cons c rest =>
    have hc := good_ne (hgood c (List.mem_cons_self c rest))
    cases rest with
    | nil =>
      simp only [matchBracketStage]
      rw [if_neg hc.1]
    | cons c2 rest2 =>
      have hc2 := good_ne (hgood c2 (List.mem_cons_of_mem c (List.mem_cons_self c2 rest2)))
      simp only [matchBracketStage]
      rw [if_neg hc.1, if_neg hc2.1]

theorem matchCharStage_nil (ch : Char) : matchCharStage ch [] = (false, []) := rfl

theorem head?_cons_sound {a c : Char} {l : List Char} (hc : (a :: l).head? = some c) :
    c = a := by
  injection hc with h
  exact h.symm

theorem coefClass_of_digit {c : Char} (h : c.isDigit = true) : coefClassCh c = true := by
  simp [coefClassCh, h]

theorem takeWhile_all {p : Char → Bool} {l : List Char} (h : ∀ c ∈ l, p c = true) :
    l.takeWhile p = l := by
  induction l with
  | nil => rfl
  | cons c rest ih =>
    rw [List.takeWhile_cons, if_pos (h c (List.mem_cons_self c rest)),
      ih fun c' hc' => h c' (List.mem_cons_of_mem c hc')]

theorem coefClass_sgn_num {sgn num : List Char}
    (hsgn : sgn = [] ∨ sgn = ['+'] ∨ sgn = ['-'])
    (hnum : ∀ c ∈ num, c.isDigit = true) :
    ∀ ch ∈ sgn ++ num, coefClassCh ch = true := by
  intro ch hch
  rcases List.mem_append.mp hch with h | h
  · rcases hsgn with rfl | rfl | rfl
    · simp at h
    · simp only [List.mem_singleton] at h; rw [h]; decide
    · simp only [List.mem_singleton] at h; rw [h]; decide
  · exact coefClass_of_digit (hnum ch h)

theorem good_sgn_num {sgn num : List Char}
    (hsgn : sgn = [] ∨ sgn = ['+'] ∨ sgn = ['-'])
    (hnum : ∀ c ∈ num, c.isDigit = true) :
    ∀ ch ∈ sgn ++ num, goodChar ch := by
  intro ch hch
  rcases List.mem_append.mp hch with h | h
  · rcases hsgn with rfl | rfl | rfl
    · simp at h
    · simp only [List.mem_singleton] at h; rw [h]; exact Or.inl rfl
    · simp only [List.mem_singleton] at h; rw [h]; exact Or.inr (Or.inl rfl)
  · exact goodChar_digit (hnum ch h)

/-- Term-pattern match of a constant-term chunk (exponent 0, no
indeterminate): the whole coefficient text is captured and nothing
follows. -/
theorem matchTermAt_constant (sgn num : List Char)
    (hsgn : sgn = [] ∨ sgn = ['+'] ∨ sgn = ['-'])
    (hnum : ∀ c ∈ num, c.isDigit = true) :
    matchTermAt (sgn ++ num)
      = (⟨none, false, if sgn ++ num = [] then none else some (sgn ++ num),
          false, false, none⟩, []) := by
  have hgood := good_sgn_num hsgn hnum
  have hclass := coefClass_sgn_num hsgn hnum
  simp only [matchTermAt]
  rw [matchBracketStage_skip hgood]
  dsimp only
  rw [takeWhile_all hclass, List.drop_length]
  rw [matchCharStage_nil]
  dsimp only
  rw [matchCharStage_nil]
  dsimp only
  rw [matchCharStage_nil]
  dsimp only
  rw [matchCharStage_nil]
  dsimp only
  rw [matchCharStage_nil]
  dsimp only
  rw [List.takeWhile_nil]
  rfl

/-- Term-pattern match of an exponent-1 chunk: the coefficient text, then the
bare `x`, then the next term's sign (or nothing). -/
theorem matchTermAt_linear (sgn num rest : List Char)
    (hsgn : sgn = [] ∨ sgn = ['+'] ∨ sgn = ['-'])
    (hnum : ∀ c ∈ num, c.isDigit = true)
    (hrest : ∀ c, rest.head? = some c → c = '+' ∨ c = '-')
    (hrestGood : ∀ ch ∈ rest, goodChar ch) :
    matchTermAt ((sgn ++ num) ++ 'x' :: rest)
      = (⟨none, false, if sgn ++ num = [] then none else some (sgn ++ num),
          false, true, none⟩, rest) := by
  have hclass := coefClass_sgn_num hsgn hnum
  have hgood : ∀ ch ∈ (sgn ++ num) ++ 'x' :: rest, goodChar ch := by
    intro ch hch
    rcases List.mem_append.mp hch with h | h
    · exact good_sgn_num hsgn hnum ch h
    · rcases List.mem_cons.mp h with h | h
      · rw [h]; exact Or.inr (Or.inr (Or.inl rfl))
      · exact hrestGood ch h
  have hrestSign : ∀ (ch : Char), rest.head? = some ch → ch ≠ '^' ∧ ch ≠ '\x7b'
      ∧ ch.isDigit = false := by
    intro ch hch
    rcases hrest ch hch with rfl | rfl <;> exact ⟨by decide, by decide, by decide⟩
  simp only [matchTermAt]
  rw [matchBracketStage_skip hgood]
  dsimp only
  rw [takeWhile_append_all hclass,
    takeWhile_nil_of_head (l := 'x' :: rest) (fun c hc => by rw [head?_cons_sound hc]; decide),
    List.append_nil, List.drop_left]
  rw [@matchCharStage_miss ')' _
    (fun c hc => by rw [head?_cons_sound hc]; decide)]
  dsimp only
  rw [@matchCharStage_miss '*' _
    (fun c hc => by rw [head?_cons_sound hc]; decide)]
  dsimp only
  rw [matchCharStage_hit]
  dsimp only
  rw [@matchCharStage_miss '^' _ (fun c hc => (hrestSign c hc).1)]
  dsimp only
  rw [@matchCharStage_miss '\x7b' _ (fun c hc => (hrestSign c hc).2.1)]
  dsimp only
  rw [takeWhile_nil_of_head (fun c hc => (hrestSign c hc).2.2)]
  rfl

/-- Term-pattern match of a higher-exponent chunk
`sgn num x ^ digits` followed by the next term's sign (or nothing). -/
theorem matchTermAt_power (sgn num ds rest : List Char)
    (hsgn : sgn = [] ∨ sgn = ['+'] ∨ sgn = ['-'])
    (hnum : ∀ c ∈ num, c.isDigit = true)
    (hds : ds ≠ [])
    (hdsD : ∀ c ∈ ds, c.isDigit = true)
    (hrest : ∀ c, rest.head? = some c → c = '+' ∨ c = '-')
    (hrestGood : ∀ ch ∈ rest, goodChar ch) :
    matchTermAt ((sgn ++ num) ++ 'x' :: '^' :: (ds ++ rest))
      = (⟨none, false, if sgn ++ num = [] then none else some (sgn ++ num),
          false, true, some ds⟩, rest) := by
  have hclass := coefClass_sgn_num hsgn hnum
  have hgood : ∀ ch ∈ (sgn ++ num) ++ 'x' :: '^' :: (ds ++ rest), goodChar ch := by
    intro ch hch
    rcases List.mem_append.mp hch with h | h
    · exact good_sgn_num hsgn hnum ch h
    · rcases List.mem_cons.mp h with h | h
      · rw [h]; exact Or.inr (Or.inr (Or.inl rfl))
      · rcases List.mem_cons.mp h with h | h
        · rw [h]; exact Or.inr (Or.inr (Or.inr (Or.inl rfl)))
        · rcases List.mem_append.mp h with h | h
          · exact goodChar_digit (hdsD ch h)
          · exact hrestGood ch h
  have hrestSign : ∀ (ch : Char), rest.head? = some ch → ch ≠ '\x7d'
      ∧ ch.isDigit = false := by
    intro ch hch
    rcases hrest ch hch with rfl | rfl <;> exact ⟨by decide, by decide⟩
  have hdsHead : ∀ (c : Char), (ds ++ rest).head? = some c → c ≠ '\x7b' := by
    intro c hc
    cases ds with
    | nil => exact absurd rfl hds
    | cons d dtl =>
      rw [List.cons_append] at hc
      rw [head?_cons_sound hc]
      have := hdsD d (List.mem_cons_self d dtl)
      intro h'
      rw [h'] at this
      exact absurd this (by decide)
  simp only [matchTermAt]
  rw [matchBracketStage_skip hgood]
  dsimp only
  rw [takeWhile_append_all hclass,
    takeWhile_nil_of_head (l := 'x' :: '^' :: (ds ++ rest))
      (fun c hc => by rw [head?_cons_sound hc]; decide),
    List.append_nil, List.drop_left]
  rw [@matchCharStage_miss ')' _
    (fun c hc => by rw [head?_cons_sound hc]; decide)]
  dsimp only
  rw [@matchCharStage_miss '*' _
    (fun c hc => by rw [head?_cons_sound hc]; decide)]
  dsimp only
  rw [matchCharStage_hit]
  dsimp only
  rw [matchCharStage_hit]
  dsimp only
  rw [@matchCharStage_miss '\x7b' _ hdsHead]
  dsimp only
  rw [takeWhile_append_all hdsD,
    takeWhile_nil_of_head (fun c hc => (hrestSign c hc).2),
    List.append_nil]
  rw [if_neg hds]
  rw [List.drop_left]
  rw [@matchCharStage_miss '\x7d' _ (fun c hc => (hrestSign c hc).1)]

theorem parseNatAcc_append (acc : Nat) (l1 l2 : List Char) :
    parseNatAcc acc (l1 ++ l2) = parseNatAcc (parseNatAcc acc l1) l2 := by
  have hstep : ∀ (a : Nat) (c : Char) (l : List Char),
      parseNatAcc a (c :: l) = parseNatAcc (a * 10 + digitVal c) l := fun _ _ _ => rfl
  induction l1 generalizing acc with
  | nil => rfl
  | cons c rest ih =>
    rw [List.cons_append, hstep, hstep]
    exact ih _

theorem digitVal_digitChar {r : Nat} (h : r < 10) : digitVal (digitChar r) = r := by
  interval_cases r <;> decide

theorem natDigitsAux_zero (n : Nat) : natDigitsAux n 0 = [] := rfl

theorem natDigitsAux_succ (n f : Nat) : natDigitsAux n (f + 1)
    = if n < 10 then [digitChar n]
      else natDigitsAux (n / 10) f ++ [digitChar (n % 10)] := rfl

theorem parseNatAcc_natDigitsAux :
    ∀ (fuel n acc : Nat), n < 10 ^ fuel →
      parseNatAcc acc (natDigitsAux n fuel)
        = acc * 10 ^ (natDigitsAux n fuel).length + n := by
  intro fuel
  induction fuel with
  | zero =>
    intro n acc h
    simp only [pow_zero, Nat.lt_one_iff] at h
    subst h
    rw [natDigitsAux_zero]
    show acc = acc * 10 ^ ([] : List Char).length + 0
    simp
  | succ f ih =>
    intro n acc h
    rw [natDigitsAux_succ]
    by_cases h10 : n < 10
    · rw [if_pos h10]
      show parseNatAcc (acc * 10 + digitVal (digitChar n)) [] = _
      rw [digitVal_digitChar h10]
      show acc * 10 + n = acc * 10 ^ [digitChar n].length + n
      rw [List.length_singleton, pow_one]
    · rw [if_neg h10]
      rw [parseNatAcc_append]
      have hdiv : n / 10 < 10 ^ f := by
        rw [Nat.div_lt_iff_lt_mul (by omega)]
        calc n < 10 ^ (f + 1) := h
          _ = 10 ^ f * 10 := by ring
      rw [ih (n / 10) acc hdiv]
      show parseNatAcc ((acc * 10 ^ (natDigitsAux (n / 10) f).length + n / 10) * 10
        + digitVal (digitChar (n % 10))) [] = _
      rw [digitVal_digitChar (Nat.mod_lt n (by omega))]
      show (acc * 10 ^ (natDigitsAux (n / 10) f).length + n / 10) * 10 + n % 10
        = acc * 10 ^ (natDigitsAux (n / 10) f ++ [digitChar (n % 10)]).length + n
      rw [List.length_append, List.length_singleton]
      have hmod := Nat.div_add_mod n 10
      calc (acc * 10 ^ (natDigitsAux (n / 10) f).length + n / 10) * 10 + n % 10
          = acc * (10 ^ (natDigitsAux (n / 10) f).length * 10)
            + (10 * (n / 10) + n % 10) := by ring
        _ = acc * 10 ^ ((natDigitsAux (n / 10) f).length + 1) + n := by
            rw [hmod, pow_succ]

theorem parseNatDigits_natDigits (n : Nat) : parseNatDigits (natDigits n) = n := by
  have hlt : n < 10 ^ (n + 1) := by
    have h1 : n < 2 ^ n := Nat.lt_two_pow n
    have h2 : 2 ^ n ≤ 10 ^ n := Nat.pow_le_pow_left (by omega) n
    have h3 : 10 ^ n ≤ 10 ^ (n + 1) := Nat.pow_le_pow_right (by omega) (by omega)
    omega
  unfold parseNatDigits natDigits
  rw [parseNatAcc_natDigitsAux (n + 1) n 0 hlt]
  simp

theorem parseIntLit_digits {cs : List Char} (hne : cs ≠ [])
    (hd : ∀ c ∈ cs, c.isDigit = true) :
    parseIntLit cs = some (parseNatDigits cs : ℤ) := by
  cases cs with
  | nil => exact absurd rfl hne
  | cons c rest =>
    have hc := hd c (List.mem_cons_self c rest)
    unfold parseIntLit
    dsimp only
    rw [if_neg, if_neg, if_pos (List.all_eq_true.mpr hd)]
    · intro h'; rw [h'] at hc; exact absurd hc (by decide)
    · intro h'; rw [h'] at hc; exact absurd hc (by decide)

theorem parseIntLit_natDigits (m : Nat) : parseIntLit (natDigits m) = some (m : ℤ) := by
  rw [parseIntLit_digits (natDigits_ne_nil m) natDigits_isDigit,
    parseNatDigits_natDigits]

theorem parseIntLit_plus_natDigits (m : Nat) :
    parseIntLit ('+' :: natDigits m) = some (m : ℤ) := by
  unfold parseIntLit
  dsimp only
  rw [if_pos rfl,
    if_pos ⟨natDigits_ne_nil m, List.all_eq_true.mpr natDigits_isDigit⟩,
    parseNatDigits_natDigits]

theorem parseIntLit_neg_natDigits (m : Nat) :
    parseIntLit ('-' :: natDigits m) = some (-(m : ℤ)) := by
  unfold parseIntLit
  dsimp only
  rw [if_neg (by decide), if_pos rfl,
    if_pos ⟨natDigits_ne_nil m, List.all_eq_true.mpr natDigits_isDigit⟩,
    parseNatDigits_natDigits]

theorem natDigits_ne_plus (m : Nat) : natDigits m ≠ ['+'] := by
  intro h
  have := natDigits_isDigit (n := m) '+' (by rw [h]; exact List.mem_singleton_self '+')
  exact absurd this (by decide)

theorem natDigits_ne_dash (m : Nat) : natDigits m ≠ ['-'] := by
  intro h
  have := natDigits_isDigit (n := m) '-' (by rw [h]; exact List.mem_singleton_self '-')
  exact absurd this (by decide)

/-- Evaluating the capture structure produced by a chunk match. -/
theorem evalTermCaps_eval (coefOpt : Option (List Char)) (ind : Bool)
    (expOpt : Option (List Char)) (k : Nat) (c : ℤ)
    (hcoef : (match coefOpt with
      | none => some (1 : ℤ)
      | some cs => if cs = ['+'] then some (1 : ℤ) else if cs = ['-'] then some (-1)
          else parseIntLit cs) = some c)
    (hexp : (match expOpt with
      | some ds => parseNatDigits ds
      | none => if ind then 1 else 0) = k) :
    evalTermCaps parseIntLit ⟨none, false, coefOpt, false, ind, expOpt⟩ = some (k, c) := by
  unfold evalTermCaps
  rw [if_neg (by simp)]
  dsimp only
  rw [hcoef]
  dsimp only
  rw [hexp, if_pos rfl]

/-- The coefficient text of a chunk evaluates back to the coefficient. -/
theorem coefEval {c : ℤ} {k : Nat} {L : Prop} [Decidable L] (hc : c ≠ 0)
    {sgn num : List Char}
    (hsgnDef : sgn
      = (if L ∧ c < 0 then ['-'] else if ¬ L then [if c < 0 then '-' else '+'] else []))
    (hnumDef : num = (if ¬ c.natAbs = 1 ∨ k = 0 then natDigits c.natAbs else [])) :
    (sgn = [] ∨ sgn = ['+'] ∨ sgn = ['-']) ∧ (∀ ch ∈ num, ch.isDigit = true) ∧
    (k = 0 → num ≠ []) ∧
    ((match (if sgn ++ num = [] then none else some (sgn ++ num)) with
       | none => some (1 : ℤ)
       | some cs => if cs = ['+'] then some (1 : ℤ) else if cs = ['-'] then some (-1)
           else parseIntLit cs) = some c) := by
  have hsgn : (L ∧ c < 0 ∧ sgn = ['-']) ∨ (¬ L ∧ c < 0 ∧ sgn = ['-'])
      ∨ (¬ L ∧ ¬ c < 0 ∧ sgn = ['+']) ∨ (L ∧ ¬ c < 0 ∧ sgn = []) := by
    by_cases hL : L <;> by_cases hneg : c < 0 <;>
      simp [hsgnDef, hL, hneg]
  by_cases hshow : ¬ c.natAbs = 1 ∨ k = 0
  · have hnum : num = natDigits c.natAbs := by rw [hnumDef, if_pos hshow]
    have hdig : ∀ ch ∈ num, ch.isDigit = true := by rw [hnum]; exact natDigits_isDigit
    have hnne : num ≠ [] := by rw [hnum]; exact natDigits_ne_nil _
    refine ⟨?_, hdig, fun _ => hnne, ?_⟩
    · rcases hsgn with ⟨-, -, h⟩ | ⟨-, -, h⟩ | ⟨-, -, h⟩ | ⟨-, -, h⟩ <;> rw [h] <;> simp
    · rcases hsgn with ⟨hL, hneg, h⟩ | ⟨hL, hneg, h⟩ | ⟨hL, hneg, h⟩ | ⟨hL, hneg, h⟩ <;>
        rw [h, hnum]
      · -- "-" ++ digits
        rw [if_neg (by simp [natDigits_ne_nil])]
        dsimp only
        rw [List.singleton_append]
        rw [if_neg (by simp), if_neg (by simp [natDigits_ne_nil]),
          parseIntLit_neg_natDigits]
        congr 1
        omega
      · rw [if_neg (by simp [natDigits_ne_nil])]
        dsimp only
        rw [List.singleton_append]
        rw [if_neg (by simp), if_neg (by simp [natDigits_ne_nil]),
          parseIntLit_neg_natDigits]
        congr 1
        omega
      · rw [if_neg (by simp [natDigits_ne_nil])]
        dsimp only
        rw [List.singleton_append]
        rw [if_neg (by simp [natDigits_ne_nil]), if_neg (by simp),
          parseIntLit_plus_natDigits]
        congr 1
        omega
      · rw [List.nil_append, if_neg (natDigits_ne_nil _)]
        dsimp only
        rw [if_neg (natDigits_ne_plus _), if_neg (natDigits_ne_dash _),
          parseIntLit_natDigits]
        congr 1
        omega
  · push_neg at hshow
    obtain ⟨habs1, hk0⟩ := hshow
    have hnum : num = [] := by
      rw [hnumDef, if_neg]
      push_neg
      exact ⟨habs1, hk0⟩
    refine ⟨?_, by rw [hnum]; intro ch h; simp at h, fun h => absurd h hk0, ?_⟩
    · rcases hsgn with ⟨-, -, h⟩ | ⟨-, -, h⟩ | ⟨-, -, h⟩ | ⟨-, -, h⟩ <;> rw [h] <;> simp
    · rcases hsgn with ⟨hL, hneg, h⟩ | ⟨hL, hneg, h⟩ | ⟨hL, hneg, h⟩ | ⟨hL, hneg, h⟩ <;>
        rw [h, hnum]
      · rw [if_neg (by simp)]
        dsimp only
        rw [List.append_nil, if_neg (by decide), if_pos rfl]
        congr 1
        omega
      · rw [if_neg (by simp)]
        dsimp only
        rw [List.append_nil, if_neg (by decide), if_pos rfl]
        congr 1
        omega
      · rw [if_neg (by simp)]
        dsimp only
        rw [List.append_nil, if_pos rfl]
        congr 1
        omega
      · rw [List.nil_append, if_pos rfl]
        dsimp only
        congr 1
        omega

theorem chunkStr_ne_nil {c : ℤ} {k : Nat} {L : Prop} [Decidable L] (hc : c ≠ 0) :
    chunkStr c k L ≠ [] := by
  unfold chunkStr
  rcases Nat.eq_zero_or_pos k with rfl | hk
  · rw [if_pos (Or.inr rfl)]
    intro h
    rcases List.append_eq_nil.mp h with ⟨h1, -⟩
    exact natDigits_ne_nil _ (List.append_eq_nil.mp h1).2
  · intro h
    have hx := (List.append_eq_nil.mp h).2
    unfold xPartStandard at hx
    rcases Nat.lt_or_ge k 2 with h2 | h2
    · have hk1 : k = 1 := by omega
      subst hk1
      rw [if_neg (by omega), if_pos rfl] at hx
      exact absurd hx (by simp)
    · rw [if_neg (by omega), if_neg (by omega)] at hx
      exact absurd hx (by simp)

theorem chunkStr_good {c : ℤ} {k : Nat} {L : Prop} [Decidable L] :
    ∀ ch ∈ chunkStr c k L, goodChar ch := by
  intro ch h
  unfold chunkStr at h
  rcases List.mem_append.mp h with h | h
  · rcases List.mem_append.mp h with h | h
    · split at h
      · simp only [List.mem_singleton] at h
        rw [h]
        exact Or.inr (Or.inl rfl)
      · split at h
        · simp only [List.mem_singleton] at h
          by_cases hneg : c < 0
          · rw [h, if_pos hneg]
            exact Or.inr (Or.inl rfl)
          · rw [h, if_neg hneg]
            exact Or.inl rfl
        · simp at h
    · split at h
      · exact goodChar_digit (natDigits_isDigit ch h)
      · simp at h
  · unfold xPartStandard at h
    split at h
    · simp at h
    · split at h
      · simp only [List.mem_singleton] at h
        rw [h]
        exact Or.inr (Or.inr (Or.inl rfl))
      · rcases List.mem_cons.mp h with h | h
        · rw [h]
          exact Or.inr (Or.inr (Or.inl rfl))
        · rcases List.mem_cons.mp h with h | h
          · rw [h]
            exact Or.inr (Or.inr (Or.inr (Or.inl rfl)))
          · exact goodChar_digit (natDigits_isDigit ch h)

theorem chunkStr_head_sign {c : ℤ} {k : Nat} {L : Prop} [Decidable L] (hL : ¬ L) :
    ∀ ch, (chunkStr c k L).head? = some ch → ch = '+' ∨ ch = '-' := by
  intro ch h
  unfold chunkStr at h
  rw [if_neg (fun hand => hL hand.1), if_pos hL] at h
  rw [List.singleton_append, List.cons_append, List.head?_cons] at h
  injection h with h'
  by_cases hneg : c < 0
  · rw [if_pos hneg] at h'
    exact Or.inr h'.symm
  · rw [if_neg hneg] at h'
    exact Or.inl h'.symm

/-- A nonzero term chunk is nonempty, matches the term pattern exactly, and
its captures evaluate back to the term. -/
theorem chunk_match {c : ℤ} {k : Nat} {L : Prop} [Decidable L] (hc : c ≠ 0)
    {sgn num : List Char}
    (hsgnDef : sgn
      = (if L ∧ c < 0 then ['-'] else if ¬ L then [if c < 0 then '-' else '+'] else []))
    (hnumDef : num = (if ¬ c.natAbs = 1 ∨ k = 0 then natDigits c.natAbs else []))
    (rest : List Char)
    (hk0 : k = 0 → rest = [])
    (hrest : ∀ ch, rest.head? = some ch → ch = '+' ∨ ch = '-')
    (hrestGood : ∀ ch ∈ rest, goodChar ch) :
    ∃ caps, matchTermAt (chunkStr c k L ++ rest) = (caps, rest) ∧
      evalTermCaps parseIntLit caps = some (k, c) := by
  obtain ⟨hsgnShape, hnumDig, hk0num, hcoefEval⟩ := coefEval (k := k) hc hsgnDef hnumDef
  have hchunk : chunkStr c k L = (sgn ++ num) ++ xPartStandard k := by
    rw [hsgnDef, hnumDef]; rfl
  rcases k with _ | (_ | j)
  · have hrest0 : rest = [] := hk0 rfl
    subst hrest0
    refine ⟨⟨none, false, if sgn ++ num = [] then none else some (sgn ++ num),
      false, false, none⟩, ?_, ?_⟩
    · rw [hchunk]
      have he : ((sgn ++ num) ++ xPartStandard 0) ++ ([] : List Char) = sgn ++ num := by
        show ((sgn ++ num) ++ ([] : List Char)) ++ ([] : List Char) = sgn ++ num
        rw [List.append_nil, List.append_nil]
      rw [he]
      exact matchTermAt_constant sgn num hsgnShape hnumDig
    · exact evalTermCaps_eval _ _ _ 0 c hcoefEval rfl
  · refine ⟨⟨none, false, if sgn ++ num = [] then none else some (sgn ++ num),
      false, true, none⟩, ?_, ?_⟩
    · rw [hchunk]
      have he : ((sgn ++ num) ++ xPartStandard 1) ++ rest = (sgn ++ num) ++ 'x' :: rest := by
        show ((sgn ++ num) ++ ['x']) ++ rest = (sgn ++ num) ++ 'x' :: rest
        rw [List.append_assoc]
        rfl
      rw [he]
      exact matchTermAt_linear sgn num rest hsgnShape hnumDig hrest hrestGood
    · exact evalTermCaps_eval _ _ _ 1 c hcoefEval rfl
  · have hxp : xPartStandard (j + 2) = 'x' :: '^' :: natDigits (j + 2) := by
      unfold xPartStandard
      rw [if_neg (by omega), if_neg (by omega)]
    refine ⟨⟨none, false, if sgn ++ num = [] then none else some (sgn ++ num),
      false, true, some (natDigits (j + 2))⟩, ?_, ?_⟩
    · rw [hchunk, hxp]
      have he : ((sgn ++ num) ++ 'x' :: '^' :: natDigits (j + 2)) ++ rest
          = (sgn ++ num) ++ 'x' :: '^' :: (natDigits (j + 2) ++ rest) := by
        rw [List.append_assoc]
        rfl
      rw [he]
      exact matchTermAt_power sgn num (natDigits (j + 2)) rest hsgnShape hnumDig
        (natDigits_ne_nil _) natDigits_isDigit hrest hrestGood
    · refine evalTermCaps_eval _ _ _ (j + 2) c hcoefEval ?_
      exact parseNatDigits_natDigits _

theorem matchTermAt_nil :
    matchTermAt [] = (⟨none, false, none, false, false, none⟩, []) := rfl

theorem termIterGo_succ (s : List Char) (f pos : Nat) (lM : Option Nat) :
    termIterGo s (f + 1) pos lM
      = if s.length < pos then []
        else
          let mr := matchTermAt (s.drop pos)
          let consumed := (s.drop pos).length - mr.2.length
          let e := pos + consumed
          if consumed = 0 then
            if some e = lM then termIterGo s f (e + 1) lM
            else mr.1 :: termIterGo s f (e + 1) (some e)
          else mr.1 :: termIterGo s f e (some e) := rfl

/-- After the last (nonempty) match ends at the end of the string, the
iterator suppresses the final empty match there and stops. -/
theorem termIterGo_stop (s : List Char) (f : Nat) :
    termIterGo s (f + 1 + 1) s.length (some s.length) = [] := by
  rw [termIterGo_succ, if_neg (by omega)]
  dsimp only
  rw [List.drop_length, matchTermAt_nil]
  dsimp only
  rw [List.length_nil, Nat.sub_self, if_pos rfl, Nat.add_zero, if_pos rfl]
  rw [termIterGo_succ, if_pos (by omega)]

theorem chunksMatch_ne_nil :
    ∀ (chunks : List (List Char)) (capsL : List TermCaps),
      ChunksMatch chunks capsL → ∀ ch ∈ chunks, ch ≠ [] := by
  intro chunks
  induction chunks with
  | nil => intro capsL _ ch h; simp at h
  | cons c rest ih =>
    intro capsL hcm ch h
    cases capsL with
    | nil => exact hcm.elim
    | cons caps capsRest =>
      obtain ⟨hne, -, hrest⟩ := hcm
      rcases List.mem_cons.mp h with rfl | h
      · exact hne
      · exact ih capsRest hrest ch h

theorem chunks_length_le :
    ∀ (chunks : List (List Char)), (∀ ch ∈ chunks, ch ≠ []) →
      chunks.length ≤ chunks.flatten.length := by
  intro chunks
  induction chunks with
  | nil => intro _; simp
  | cons c rest ih =>
    intro h
    rw [List.flatten_cons, List.length_append, List.length_cons]
    have h1 : 1 ≤ c.length := by
      have hne := h c (List.mem_cons_self c rest)
      cases c with
      | nil => exact absurd rfl hne
      | cons _ _ => simp
    have h2 := ih (fun ch hch => h ch (List.mem_cons_of_mem c hch))
    omega

/-- The `captures_iter` scan over a string laid out as matching chunks yields
exactly the chunks' captures. -/
theorem termIterGo_chunks :
    ∀ (chunks : List (List Char)) (capsL : List TermCaps) (pos fuel : Nat)
      (lM : Option Nat) (s : List Char),
      ChunksMatch chunks capsL →
      s.drop pos = chunks.flatten →
      pos ≤ s.length →
      chunks.length + 2 ≤ fuel →
      (chunks = [] → lM = some pos) →
      termIterGo s fuel pos lM = capsL := by
  intro chunks
  induction chunks with
  | nil =>
    intro capsL pos fuel lM s hcm hdrop hpos hfuel hlm
    cases capsL with
    | cons caps capsRest => exact hcm.elim
    | nil =>
      have hdrop' : s.drop pos = [] := by rw [hdrop]; rfl
      have hlen : pos = s.length := by
        have h1 := List.length_drop pos s
        rw [hdrop'] at h1
        simp at h1
        omega
      obtain ⟨f, rfl⟩ : ∃ f, fuel = f + 1 + 1 := ⟨fuel - 2, by omega⟩
      rw [hlen, hlm rfl, hlen]
      exact termIterGo_stop s f
  | cons ch rest ih =>
    intro capsL pos fuel lM s hcm hdrop hpos hfuel hlm
    cases capsL with
    | nil => exact hcm.elim
    | cons caps capsRest =>
      obtain ⟨hchne, hmatch, hcmrest⟩ := hcm
      obtain ⟨f, rfl⟩ : ∃ f, fuel = f + 1 := ⟨fuel - 1, by omega⟩
      have hdroplen : (s.drop pos).length = ch.length + rest.flatten.length := by
        rw [hdrop, List.flatten_cons, List.length_append]
      have hld := List.length_drop pos s
      have hm : matchTermAt (s.drop pos) = (caps, rest.flatten) := by
        rw [hdrop, List.flatten_cons]
        exact hmatch
      have hchpos : ch.length ≠ 0 := by
        intro h
        exact hchne (List.eq_nil_of_length_eq_zero h)
      rw [termIterGo_succ, if_neg (by omega)]
      dsimp only
      rw [hm]
      dsimp only
      rw [show (s.drop pos).length - rest.flatten.length = ch.length from by omega]
      rw [if_neg hchpos]
      congr 1
      apply ih capsRest (pos + ch.length) f (some (pos + ch.length)) s hcmrest
      · rw [← List.drop_drop, hdrop, List.flatten_cons, List.drop_left]
      · omega
      · simp only [List.length_cons] at hfuel
        omega
      · intro _
        rfl

/-- Full `captures_iter` run on a chunk decomposition. -/
theorem termCapsList_chunks (chunks : List (List Char)) (capsL : List TermCaps)
    (hcm : ChunksMatch chunks capsL) (hne : chunks ≠ []) :
    termCapsList chunks.flatten = capsL := by
  unfold termCapsList
  apply termIterGo_chunks chunks capsL 0 _ none _ hcm (by simp) (by simp)
  · have := chunks_length_le chunks (chunksMatch_ne_nil chunks capsL hcm)
    omega
  · intro h
    exact absurd h hne

/-- The chunks of a strictly descending list of nonzero terms match the term
pattern chunk by chunk, and the captures evaluate back to the terms. -/
theorem chunksMatch_exists :
    ∀ (l : List (Nat × ℤ)) (d : Nat),
      (∀ kc ∈ l, kc.2 ≠ 0) →
      l.Pairwise (fun a b => b.1 < a.1) →
      (∀ kc ∈ l, kc.1 ≤ d) →
      ∃ capsL, ChunksMatch (chunksOf d l) capsL ∧
        capsL.mapM (evalTermCaps parseIntLit) = some l := by
  intro l
  induction l with
  | nil =>
    intro d _ _ _
    exact ⟨[], trivial, rfl⟩
  | cons kc restL ih =>
    intro d hnz hdesc hle
    obtain ⟨capsRest, hcmRest, hevalRest⟩ := ih d
      (fun e he => hnz e (List.mem_cons_of_mem kc he))
      (List.pairwise_cons.mp hdesc).2
      (fun e he => hle e (List.mem_cons_of_mem kc he))
    have hdlt : ∀ e ∈ restL, e.1 < kc.1 := (List.pairwise_cons.mp hdesc).1
    have hk0 : kc.1 = 0 → (chunksOf d restL).flatten = [] := by
      intro h0
      cases restL with
      | nil => rfl
      | cons e tl =>
        have := hdlt e (List.mem_cons_self e tl)
        omega
    have hrestHead : ∀ ch, ((chunksOf d restL).flatten).head? = some ch →
        ch = '+' ∨ ch = '-' := by
      intro ch h
      cases restL with
      | nil => simp [chunksOf] at h
      | cons e tl =>
        have hechunk : chunksOf d (e :: tl)
            = chunkStr e.2 e.1 (e.1 = d) :: chunksOf d tl := rfl
        rw [hechunk, List.flatten_cons] at h
        have hene : chunkStr e.2 e.1 (e.1 = d) ≠ [] :=
          chunkStr_ne_nil (hnz e (List.mem_cons_of_mem kc (List.mem_cons_self e tl)))
        have hHead : (chunkStr e.2 e.1 (e.1 = d) ++ (chunksOf d tl).flatten).head?
            = (chunkStr e.2 e.1 (e.1 = d)).head? := by
          cases hc : chunkStr e.2 e.1 (e.1 = d) with
          | nil => exact absurd hc hene
          | cons a b => rw [List.cons_append, List.head?_cons, List.head?_cons]
        rw [hHead] at h
        have heneD : ¬ (e.1 = d) := by
          have h1 := hdlt e (List.mem_cons_self e tl)
          have h2 := hle kc (List.mem_cons_self kc _)
          omega
        exact chunkStr_head_sign heneD ch h
    have hrestGood : ∀ ch ∈ (chunksOf d restL).flatten, goodChar ch := by
      intro ch h
      rw [List.mem_flatten] at h
      obtain ⟨lc, hlc, hch⟩ := h
      rw [chunksOf, List.mem_map] at hlc
      obtain ⟨e, he, rfl⟩ := hlc
      exact chunkStr_good ch hch
    obtain ⟨caps, hmatch, heval⟩ := chunk_match (L := (kc.1 = d))
      (hnz kc (List.mem_cons_self kc restL)) rfl rfl
      ((chunksOf d restL).flatten) hk0 hrestHead hrestGood
    refine ⟨caps :: capsRest, ?_, ?_⟩
    · exact ⟨chunkStr_ne_nil (hnz kc (List.mem_cons_self kc restL)), hmatch, hcmRest⟩
    · rw [List.mapM_cons, heval, hevalRest]
      rfl

/-- Stripping whitespace from one rendered term leaves its chunk. -/
theorem strip_term (c : ℤ) (k : Nat) (L : Prop) [Decidable L] :
    (formatCoefficientInt c L (k = 0) ++ xPartStandard k).filter
        (fun ch => !(rustWhitespace ch))
      = chunkStr c k L := by
  unfold formatCoefficientInt chunkStr
  rw [List.filter_append, List.filter_append]
  congr 1
  congr 1
  · by_cases hLc : L ∧ c < 0
    · rw [if_pos hLc, if_pos hLc]
      decide
    · rw [if_neg hLc, if_neg hLc]
      by_cases hL : ¬ L
      · rw [if_pos hL, if_pos hL]
        by_cases hneg : c < 0
        · rw [if_pos hneg]
          decide
        · rw [if_neg hneg]
          decide
      · rw [if_neg hL, if_neg hL]
        rfl
  · by_cases hn : ¬ c.natAbs = 1 ∨ k = 0
    · rw [if_pos hn, if_pos hn]
      apply List.filter_eq_self.mpr
      intro ch hch
      have hws := (digit_list_props (natDigits_mem hch)).1
      simp [hws]
    · rw [if_neg hn, if_neg hn]
      rfl
  · apply List.filter_eq_self.mpr
    intro ch hch
    unfold xPartStandard at hch
    split at hch
    · simp at hch
    · split at hch
      · simp only [List.mem_singleton] at hch
        rw [hch]
        decide
      · rcases List.mem_cons.mp hch with h | h
        · rw [h]
          decide
        · rcases List.mem_cons.mp h with h | h
          · rw [h]
            decide
          · have hws := (digit_list_props (natDigits_mem h)).1
            simp [hws]

theorem strip_render_list (d : Nat) :
    ∀ l : List (Nat × ℤ), (∀ kc ∈ l, kc.2 ≠ 0) →
      ((l.map fun kc =>
          if kc.2 = 0 then []
          else formatCoefficientInt kc.2 (kc.1 = d) (kc.1 = 0)
            ++ xPartStandard kc.1).flatten).filter (fun ch => !(rustWhitespace ch))
        = (chunksOf d l).flatten := by
  intro l
  induction l with
  | nil => intro _; rfl
  | cons kc rest ih =>
    intro h
    rw [List.map_cons, if_neg (h kc (List.mem_cons_self kc rest)), List.flatten_cons,
      List.filter_append, ih (fun e he => h e (List.mem_cons_of_mem kc he)),
      strip_term kc.2 kc.1 (kc.1 = d),
      show chunksOf d (kc :: rest) = chunkStr kc.2 kc.1 (kc.1 = d) :: chunksOf d rest
        from rfl,
      List.flatten_cons]

/-- Stripping whitespace from a nonzero polynomial's Standard rendering leaves
exactly the concatenated term chunks, highest exponent first. -/
theorem strip_render {p : Poly ℤ} {d : Nat} (hd : degOpt p = some d)
    (hnz : ∀ kc ∈ p.reverse, kc.2 ≠ 0) :
    (renderStandardZ p).filter (fun ch => !(rustWhitespace ch))
      = (chunksOf d p.reverse).flatten := by
  unfold renderStandardZ
  rw [hd]
  exact strip_render_list d p.reverse hnz

end TextTheorems

section CoreTheorems

variable {α : Type} [CommRing α] [DecidableEq α]

theorem getCoefficientAt_nil (k : Nat) : getCoefficientAt ([] : Poly α) k = 0 := rfl

theorem getCoefficientAt_eq_zero_of_not_mem {p : Poly α} {k : Nat}
    (h : ∀ e ∈ p, e.1 ≠ k) : getCoefficientAt p k = 0 := by
  induction p with
  | nil => rfl
  | cons e rest ih =>
    simp only [getCoefficientAt]
    rw [if_neg (h e (List.mem_cons_self e rest))]
    exact ih fun e' he' => h e' (List.mem_cons_of_mem e he')

theorem mem_insertEntry {k : Nat} {c : α} {p : Poly α} {e : Nat × α}
    (h : e ∈ insertEntry k c p) : e = (k, c) ∨ e ∈ p := by
  induction p with
  | nil => simpa [insertEntry] using h
  | cons e' rest ih =>
    simp only [insertEntry] at h
    split at h
    · rcases List.mem_cons.mp h with h | h
      · exact Or.inl h
      · exact Or.inr h
    · split at h
      · rcases List.mem_cons.mp h with h | h
        · exact Or.inl h
        · exact Or.inr (List.mem_cons_of_mem e' h)
      · rcases List.mem_cons.mp h with h | h
        · exact Or.inr (by simp [h])
        · rcases ih h with h' | h'
          · exact Or.inl h'
          · exact Or.inr (List.mem_cons_of_mem e' h')

theorem removeEntry_sublist (k : Nat) (p : Poly α) : (removeEntry k p).Sublist p := by
  induction p with
  | nil => simp [removeEntry]
  | cons e rest ih =>
    simp only [removeEntry]
    split
    · exact (List.sublist_cons_self e rest)
    · exact ih.cons₂ e

theorem sorted_insertEntry {k : Nat} {c : α} {p : Poly α} (hp : PolySorted p) :
    PolySorted (insertEntry k c p) := by
  induction p with
  | nil => simp [insertEntry, PolySorted]
  | cons e rest ih =>
    rcases List.pairwise_cons.mp hp with ⟨he, hrest⟩
    simp only [insertEntry]
    split
    · rename_i hlt
      refine List.pairwise_cons.mpr ⟨?_, hp⟩
      intro e' he'
      rcases List.mem_cons.mp he' with h | h
      · simpa [h] using hlt
      · exact lt_trans hlt (he e' h)
    · split
      · rename_i hne heq
        refine List.pairwise_cons.mpr ⟨?_, hrest⟩
        intro e' he'
        rw [heq]; exact he e' he'
      · rename_i hne hne'
        refine List.pairwise_cons.mpr ⟨?_, ih hrest⟩
        intro e' he'
        rcases mem_insertEntry he' with h | h
        · rw [h]; omega
        · exact he e' h

theorem sorted_removeEntry {k : Nat} {p : Poly α} (hp : PolySorted p) :
    PolySorted (removeEntry k p) :=
  List.Pairwise.sublist (removeEntry_sublist k p) hp

theorem sorted_setCoefficientAt {p : Poly α} {k : Nat} {c : α} (hp : PolySorted p) :
    PolySorted (setCoefficientAt p k c) := by
  unfold setCoefficientAt
  split
  · exact sorted_removeEntry hp
  · exact sorted_insertEntry hp

theorem noZeros_insertEntry {k : Nat} {c : α} {p : Poly α}
    (hc : c ≠ 0) (hp : NoZeros p) : NoZeros (insertEntry k c p) := by
  intro e he
  rcases mem_insertEntry he with h | h
  · rw [h]; exact hc
  · exact hp e h

theorem noZeros_removeEntry {k : Nat} {p : Poly α} (hp : NoZeros p) :
    NoZeros (removeEntry k p) :=
  fun e he => hp e ((removeEntry_sublist k p).mem he)

theorem noZeros_setCoefficientAt {p : Poly α} {k : Nat} {c : α} (hp : NoZeros p) :
    NoZeros (setCoefficientAt p k c) := by
  unfold setCoefficientAt
  split
  · exact noZeros_removeEntry hp
  · exact noZeros_insertEntry (by assumption) hp

theorem polyInv_setCoefficientAt {p : Poly α} {k : Nat} {c : α} (hp : PolyInv p) :
    PolyInv (setCoefficientAt p k c) :=
  ⟨sorted_setCoefficientAt hp.1, noZeros_setCoefficientAt hp.2⟩

theorem getCoefficientAt_insertEntry (p : Poly α) (k : Nat) (c : α) (m : Nat) :
    getCoefficientAt (insertEntry k c p) m = if m = k then c else getCoefficientAt p m := by
  induction p with
  | nil =>
    simp only [insertEntry, getCoefficientAt]
    by_cases h : m = k
    · rw [if_pos (by omega : k = m), if_pos h]
    · rw [if_neg (by omega : ¬ k = m), if_neg h]
  | cons e rest ih =>
    simp only [insertEntry]
    split
    · rename_i hlt
      simp only [getCoefficientAt]
      by_cases h : m = k
      · rw [if_pos (by omega : k = m), if_pos h]
      · rw [if_neg (by omega : ¬ k = m), if_neg h]
    · split
      · rename_i hne heq
        simp only [getCoefficientAt]
        by_cases h : m = k
        · rw [if_pos (by omega : k = m), if_pos h]
        · rw [if_neg (by omega : ¬ k = m), if_neg h, if_neg (by omega : ¬ e.1 = m)]
      · rename_i hne hne'
        simp only [getCoefficientAt]
        by_cases h : e.1 = m
        · rw [if_pos h, if_neg (by omega : ¬ m = k), if_pos h]
        · rw [if_neg h, if_neg h, ih]

theorem getCoefficientAt_removeEntry {p : Poly α} (hp : PolySorted p) (k m : Nat) :
    getCoefficientAt (removeEntry k p) m = if m = k then 0 else getCoefficientAt p m := by
  induction p with
  | nil => simp [removeEntry, getCoefficientAt]
  | cons e rest ih =>
    rcases List.pairwise_cons.mp hp with ⟨he, hrest⟩
    simp only [removeEntry]
    split
    · rename_i heq
      by_cases h : m = k
      · rw [if_pos h]
        exact getCoefficientAt_eq_zero_of_not_mem fun e' he' => by
          have := he e' he'; omega
      · rw [if_neg h]
        simp only [getCoefficientAt]
        rw [if_neg (by omega)]
    · rename_i hne
      simp only [getCoefficientAt]
      by_cases h : e.1 = m
      · have : ¬ m = k := by omega
        simp [h, this]
      · simp [h, ih hrest]

theorem getCoefficientAt_setCoefficientAt {p : Poly α} (hp : PolySorted p)
    (k : Nat) (c : α) (m : Nat) :
    getCoefficientAt (setCoefficientAt p k c) m
      = if m = k then c else getCoefficientAt p m := by
  unfold setCoefficientAt
  split
  · rename_i hc
    rw [getCoefficientAt_removeEntry hp k m, hc]
  · rw [getCoefficientAt_insertEntry]

theorem exists_mem_of_get_ne_zero {p : Poly α} {m : Nat}
    (h : getCoefficientAt p m ≠ 0) : ∃ e ∈ p, e.1 = m := by
  induction p with
  | nil => simp [getCoefficientAt] at h
  | cons e rest ih =>
    simp only [getCoefficientAt] at h
    by_cases he : e.1 = m
    · exact ⟨e, List.mem_cons_self e rest, he⟩
    · rw [if_neg he] at h
      obtain ⟨e', he', hm⟩ := ih h
      exact ⟨e', List.mem_cons_of_mem e he', hm⟩

theorem getCoefficientAt_cons_self (k : Nat) (c : α) (rest : Poly α) :
    getCoefficientAt ((k, c) :: rest) k = c := by
  simp [getCoefficientAt]

/-- Map extensionality: two stores satisfying the representation invariants
with the same coefficient function are structurally equal (this is what makes
`PartialEq` on the underlying map agree with mathematical equality). -/
theorem poly_ext {p q : Poly α} (hp : PolyInv p) (hq : PolyInv q)
    (h : ∀ e, getCoefficientAt p e = getCoefficientAt q e) : p = q := by
  induction p generalizing q with
  | nil =>
    cases q with
    | nil => rfl
    | cons e rest =>
      exfalso
      have h0 := h e.1
      rw [getCoefficientAt_nil] at h0
      have : getCoefficientAt (e :: rest) e.1 = e.2 := by
        simp [getCoefficientAt]
      rw [this] at h0
      exact hq.2 e (List.mem_cons_self e rest) h0.symm
  | cons e1 p' ih =>
    cases q with
    | nil =>
      exfalso
      have h0 := h e1.1
      have : getCoefficientAt (e1 :: p') e1.1 = e1.2 := by simp [getCoefficientAt]
      rw [this, getCoefficientAt_nil] at h0
      exact hp.2 e1 (List.mem_cons_self e1 p') h0
    | cons e2 q' =>
      rcases List.pairwise_cons.mp hp.1 with ⟨he1, hp's⟩
      rcases List.pairwise_cons.mp hq.1 with ⟨he2, hq's⟩
      have hget1 : getCoefficientAt (e1 :: p') e1.1 = e1.2 := by simp [getCoefficientAt]
      have hget2 : getCoefficientAt (e2 :: q') e2.1 = e2.2 := by simp [getCoefficientAt]
      -- the head keys agree
      have hk : e1.1 = e2.1 := by
        by_contra hk
        rcases Nat.lt_or_ge e1.1 e2.1 with hlt | hge
        · have h1 := h e1.1
          rw [hget1] at h1
          have : getCoefficientAt (e2 :: q') e1.1 = 0 := by
            apply getCoefficientAt_eq_zero_of_not_mem
            intro e' he'
            rcases List.mem_cons.mp he' with h' | h'
            · rw [h']; omega
            · have := he2 e' h'; omega
          rw [this] at h1
          exact hp.2 e1 (List.mem_cons_self e1 p') h1
        · have hlt : e2.1 < e1.1 := by omega
          have h2 := h e2.1
          rw [hget2] at h2
          have : getCoefficientAt (e1 :: p') e2.1 = 0 := by
            apply getCoefficientAt_eq_zero_of_not_mem
            intro e' he'
            rcases List.mem_cons.mp he' with h' | h'
            · rw [h']; omega
            · have := he1 e' h'; omega
          rw [this] at h2
          exact hq.2 e2 (List.mem_cons_self e2 q') h2.symm
      have hc : e1.2 = e2.2 := by
        have h1 := h e1.1
        rw [hget1] at h1
        rw [h1, hk, hget2]
      have htail : ∀ m, getCoefficientAt p' m = getCoefficientAt q' m := by
        intro m
        by_cases hm : e1.1 = m
        · have hz1 : getCoefficientAt p' m = 0 :=
            getCoefficientAt_eq_zero_of_not_mem fun e' he' => by
              have := he1 e' he'; omega
          have hz2 : getCoefficientAt q' m = 0 :=
            getCoefficientAt_eq_zero_of_not_mem fun e' he' => by
              have := he2 e' he'; omega
          rw [hz1, hz2]
        · have h1 := h m
          simp only [getCoefficientAt] at h1
          rw [if_neg hm, if_neg (by omega : ¬ e2.1 = m)] at h1
          exact h1
      have hrec := ih ⟨hp's, fun e' he' => hp.2 e' (List.mem_cons_of_mem e1 he')⟩
        ⟨hq's, fun e' he' => hq.2 e' (List.mem_cons_of_mem e2 he')⟩ htail
      rw [hrec]
      have : e1 = e2 := Prod.ext hk hc
      rw [this]

theorem degOpt_nil : degOpt ([] : Poly α) = none := rfl

theorem degOpt_isSome {p : Poly α} (h : p ≠ []) : ∃ d, degOpt p = some d := by
  unfold degOpt
  rw [List.getLast?_eq_getLast_of_ne_nil h]
  exact ⟨(p.getLast h).1, rfl⟩

theorem getLast_mem_of_degOpt {p : Poly α} {d : Nat} (h : degOpt p = some d) :
    ∃ c, (d, c) ∈ p ∧ p.getLast? = some (d, c) := by
  unfold degOpt at h
  cases hl : p.getLast? with
  | none => rw [hl] at h; simp at h
  | some e =>
    rw [hl] at h
    simp only [Option.map_some'] at h
    have hd : e.1 = d := by injection h
    have hne : p ≠ [] := by
      intro hp
      rw [hp] at hl
      simp at hl
    have hmem : e ∈ p := by
      rw [List.getLast?_eq_getLast_of_ne_nil hne] at hl
      have : e = p.getLast hne := by injection hl with h'; exact h'.symm
      rw [this]
      exact List.getLast_mem hne
    refine ⟨e.2, ?_, ?_⟩
    · rw [← hd]; exact hmem
    · exact congrArg some (Prod.ext hd rfl)

theorem key_le_deg {p : Poly α} (hp : PolySorted p) {d : Nat}
    (hd : degOpt p = some d) : ∀ e ∈ p, e.1 ≤ d := by
  induction p generalizing d with
  | nil => intro e he; simp at he
  | cons e0 rest ih =>
    rcases List.pairwise_cons.mp hp with ⟨he0, hrest⟩
    intro e he
    cases rest with
    | nil =>
      simp only [List.mem_singleton] at he
      unfold degOpt at hd
      simp only [List.getLast?_singleton, Option.map_some'] at hd
      have : e0.1 = d := by injection hd
      rw [he]
      omega
    | cons e1 rest' =>
      have hd' : degOpt (e1 :: rest') = some d := by
        unfold degOpt at hd ⊢
        rwa [List.getLast?_cons_cons] at hd
      rcases List.mem_cons.mp he with h | h
      · have h1 := ih hrest hd' e1 (List.mem_cons_self e1 rest')
        have := he0 e1 (List.mem_cons_self e1 rest')
        rw [h]; omega
      · exact ih hrest hd' e h

/-- Above the degree every coefficient reads as zero. -/
theorem get_eq_zero_of_deg_lt {p : Poly α} (hp : PolySorted p) {d m : Nat}
    (hd : degOpt p = some d) (hm : d < m) : getCoefficientAt p m = 0 :=
  getCoefficientAt_eq_zero_of_not_mem fun e he => by
    have := key_le_deg hp hd e he; omega

/-- The zero polynomial reads zero everywhere (trivially). -/
theorem get_nil_eq_zero (m : Nat) : getCoefficientAt ([] : Poly α) m = 0 := rfl

/-- The leading coefficient: `get p (degree p)` is the last stored entry. -/
theorem get_at_deg {p : Poly α} (hp : PolySorted p) {d : Nat}
    (hd : degOpt p = some d) {c : α} (hl : p.getLast? = some (d, c)) :
    getCoefficientAt p d = c := by
  induction p with
  | nil => simp at hl
  | cons e0 rest ih =>
    rcases List.pairwise_cons.mp hp with ⟨he0, hrest⟩
    cases rest with
    | nil =>
      simp only [List.getLast?_singleton] at hl
      have h1 : e0 = (d, c) := by injection hl
      rw [h1]
      exact getCoefficientAt_cons_self d c []
    | cons e1 rest' =>
      have hl' : (e1 :: rest').getLast? = some (d, c) := by
        rwa [List.getLast?_cons_cons] at hl
      have hd' : degOpt (e1 :: rest') = some d := by
        unfold degOpt at hd ⊢
        rwa [List.getLast?_cons_cons] at hd
      have hne : e0.1 ≠ d := by
        have h1 := key_le_deg hrest hd' e1 (List.mem_cons_self e1 rest')
        have h2 := he0 e1 (List.mem_cons_self e1 rest')
        -- e0.1 < e1.1 ≤ d
        omega
      simp only [getCoefficientAt]
      rw [if_neg hne]
      exact ih hrest hd' hl'

/-- The leading coefficient of a sparse polynomial is nonzero. -/
theorem get_deg_ne_zero {p : Poly α} (hp : PolyInv p) {d : Nat}
    (hd : degOpt p = some d) : getCoefficientAt p d ≠ 0 := by
  obtain ⟨c, hmem, hl⟩ := getLast_mem_of_degOpt hd
  rw [get_at_deg hp.1 hd hl]
  exact hp.2 (d, c) hmem

/-- If all coefficients at exponents `≥ r` vanish, the polynomial is zero or
its degree is below `r`. -/
theorem deg_lt_of_high_coeffs_zero {p : Poly α} (hp : PolyInv p) {r : Nat}
    (h : ∀ m, r ≤ m → getCoefficientAt p m = 0) :
    p = [] ∨ ∃ d, degOpt p = some d ∧ d < r := by
  by_cases hnil : p = []
  · exact Or.inl hnil
  · obtain ⟨d, hd⟩ := degOpt_isSome hnil
    refine Or.inr ⟨d, hd, ?_⟩
    by_contra hge
    exact get_deg_ne_zero hp hd (h d (by omega))

theorem sumAt_eq_zero_of_not_mem {ts : List (Nat × α)} {m : Nat}
    (h : ∀ e ∈ ts, e.1 ≠ m) : sumAt ts m = 0 := by
  induction ts with
  | nil => rfl
  | cons kc rest ih =>
    simp only [sumAt]
    rw [if_neg (h kc (List.mem_cons_self kc rest)), ih fun e he => h e (List.mem_cons_of_mem kc he)]
    ring

/-- On a duplicate-free sorted store the contribution sum is the lookup. -/
theorem sumAt_eq_get {q : Poly α} (hq : PolySorted q) (m : Nat) :
    sumAt q m = getCoefficientAt q m := by
  induction q with
  | nil => rfl
  | cons kc rest ih =>
    rcases List.pairwise_cons.mp hq with ⟨hkc, hrest⟩
    simp only [sumAt, getCoefficientAt]
    by_cases h : kc.1 = m
    · rw [if_pos h, if_pos h]
      rw [sumAt_eq_zero_of_not_mem fun e he => by have := hkc e he; omega]
      ring
    · rw [if_neg h, if_neg h, ih hrest]
      ring

theorem sorted_addCoefficientAt {p : Poly α} {k : Nat} {c : α} (hp : PolySorted p) :
    PolySorted (addCoefficientAt p k c) := sorted_setCoefficientAt hp

theorem sorted_subCoefficientAt {p : Poly α} {k : Nat} {c : α} (hp : PolySorted p) :
    PolySorted (subCoefficientAt p k c) := sorted_setCoefficientAt hp

theorem polyInv_addCoefficientAt {p : Poly α} {k : Nat} {c : α} (hp : PolyInv p) :
    PolyInv (addCoefficientAt p k c) := polyInv_setCoefficientAt hp

theorem polyInv_subCoefficientAt {p : Poly α} {k : Nat} {c : α} (hp : PolyInv p) :
    PolyInv (subCoefficientAt p k c) := polyInv_setCoefficientAt hp

theorem polyInv_mulCoefficientAt {p : Poly α} {k : Nat} {c : α} (hp : PolyInv p) :
    PolyInv (mulCoefficientAt p k c) := polyInv_setCoefficientAt hp

theorem get_addCoefficientAt {p : Poly α} (hp : PolySorted p) (k : Nat) (c : α) (m : Nat) :
    getCoefficientAt (addCoefficientAt p k c) m
      = if m = k then getCoefficientAt p k + c else getCoefficientAt p m := by
  unfold addCoefficientAt
  rw [getCoefficientAt_setCoefficientAt hp]

theorem get_subCoefficientAt {p : Poly α} (hp : PolySorted p) (k : Nat) (c : α) (m : Nat) :
    getCoefficientAt (subCoefficientAt p k c) m
      = if m = k then getCoefficientAt p k - c else getCoefficientAt p m := by
  unfold subCoefficientAt
  rw [getCoefficientAt_setCoefficientAt hp]

theorem polyInv_foldAddTerms {p : Poly α} (hp : PolyInv p) (ts : List (Nat × α)) :
    PolyInv (foldAddTerms p ts) := by
  induction ts generalizing p with
  | nil => exact hp
  | cons kc rest ih => exact ih (polyInv_addCoefficientAt hp)

theorem sorted_foldAddTerms {p : Poly α} (hp : PolySorted p) (ts : List (Nat × α)) :
    PolySorted (foldAddTerms p ts) := by
  induction ts generalizing p with
  | nil => exact hp
  | cons kc rest ih => exact ih (sorted_setCoefficientAt hp)

/-- Folding term contributions through `add_coefficient_at` accumulates, at
every exponent, the sum of the matching contributions. -/
theorem get_foldAddTerms {p : Poly α} (hp : PolySorted p) (ts : List (Nat × α)) (m : Nat) :
    getCoefficientAt (foldAddTerms p ts) m = getCoefficientAt p m + sumAt ts m := by
  induction ts generalizing p with
  | nil => simp [foldAddTerms, sumAt]
  | cons kc rest ih =>
    have step : foldAddTerms p (kc :: rest) = foldAddTerms (addCoefficientAt p kc.1 kc.2) rest := rfl
    rw [step, ih (sorted_addCoefficientAt hp)]
    rw [get_addCoefficientAt hp]
    simp only [sumAt]
    by_cases h : m = kc.1
    · rw [if_pos h, if_pos (by omega : kc.1 = m), h]
      ring
    · rw [if_neg h, if_neg (by omega : ¬ kc.1 = m)]
      ring

theorem get_addPoly {p q : Poly α} (hp : PolySorted p) (hq : PolySorted q) (m : Nat) :
    getCoefficientAt (addPoly p q) m = getCoefficientAt p m + getCoefficientAt q m := by
  unfold addPoly
  rw [get_foldAddTerms hp, sumAt_eq_get hq]

theorem polyInv_addPoly {p : Poly α} (hp : PolyInv p) (q : Poly α) :
    PolyInv (addPoly p q) := polyInv_foldAddTerms hp q

theorem polyInv_subPoly {p : Poly α} (hp : PolyInv p) (q : Poly α) :
    PolyInv (subPoly p q) := by
  unfold subPoly
  induction q generalizing p with
  | nil => exact hp
  | cons kc rest ih => exact ih (polyInv_subCoefficientAt hp)

theorem get_subFold {p : Poly α} (hp : PolySorted p) (ts : List (Nat × α)) (m : Nat) :
    getCoefficientAt (ts.foldl (fun a kc => subCoefficientAt a kc.1 kc.2) p) m
      = getCoefficientAt p m - sumAt ts m := by
  induction ts generalizing p with
  | nil => simp [sumAt]
  | cons kc rest ih =>
    have step : (kc :: rest).foldl (fun a kc => subCoefficientAt a kc.1 kc.2) p
        = rest.foldl (fun a kc => subCoefficientAt a kc.1 kc.2) (subCoefficientAt p kc.1 kc.2) := rfl
    rw [step, ih (sorted_subCoefficientAt hp), get_subCoefficientAt hp]
    simp only [sumAt]
    by_cases h : m = kc.1
    · rw [if_pos h, if_pos (by omega : kc.1 = m), h]
      ring
    · rw [if_neg h, if_neg (by omega : ¬ kc.1 = m)]
      ring

theorem get_subPoly {p q : Poly α} (hp : PolySorted p) (hq : PolySorted q) (m : Nat) :
    getCoefficientAt (subPoly p q) m = getCoefficientAt p m - getCoefficientAt q m := by
  unfold subPoly
  rw [get_subFold hp, sumAt_eq_get hq]

theorem mulPoly_eq_fold (p q : Poly α) :
    mulPoly p q = p.foldl (fun acc kc1 => foldAddTerms acc (shiftTerms kc1 q)) zeroPoly := by
  unfold mulPoly foldAddTerms shiftTerms
  congr 1
  funext acc kc1
  rw [List.foldl_map]

theorem polyInv_mulFold {q : Poly α} (p : List (Nat × α)) {acc : Poly α} (hacc : PolyInv acc) :
    PolyInv (p.foldl (fun acc kc1 => foldAddTerms acc (shiftTerms kc1 q)) acc) := by
  induction p generalizing acc with
  | nil => exact hacc
  | cons kc1 rest ih => exact ih (polyInv_foldAddTerms hacc _)

theorem sorted_nil : PolySorted ([] : Poly α) := List.Pairwise.nil

theorem polyInv_nil : PolyInv ([] : Poly α) :=
  ⟨List.Pairwise.nil, by intro e he; simp at he⟩

theorem zeroPoly_def : (zeroPoly : Poly α) = [] := rfl

theorem polyInv_mulPoly (p q : Poly α) : PolyInv (mulPoly p q) := by
  rw [mulPoly_eq_fold]
  exact polyInv_mulFold p polyInv_nil

theorem get_mulFold {q : Poly α} (p : List (Nat × α)) {acc : Poly α}
    (hacc : PolySorted acc) (m : Nat) :
    getCoefficientAt (p.foldl (fun acc kc1 => foldAddTerms acc (shiftTerms kc1 q)) acc) m
      = getCoefficientAt acc m + convSum p q m := by
  induction p generalizing acc with
  | nil => simp [convSum]
  | cons kc1 rest ih =>
    have step : ((kc1 :: rest).foldl (fun acc kc1 => foldAddTerms acc (shiftTerms kc1 q)) acc)
        = rest.foldl (fun acc kc1 => foldAddTerms acc (shiftTerms kc1 q))
            (foldAddTerms acc (shiftTerms kc1 q)) := rfl
    rw [step, ih (sorted_foldAddTerms hacc _), get_foldAddTerms hacc]
    simp only [convSum, List.map_cons, List.sum_cons]
    ring

/-- `multiply` computes, at every exponent, the convolution sum — with no
hypotheses, since the accumulator built from the empty store stays sorted. -/
theorem get_mulPoly (p q : Poly α) (m : Nat) :
    getCoefficientAt (mulPoly p q) m = convSum p q m := by
  rw [mulPoly_eq_fold, zeroPoly_def, get_mulFold p sorted_nil]
  simp [getCoefficientAt]

theorem sumAt_shiftTerms (kt : Nat) (ct : α) (q : List (Nat × α)) (m : Nat) :
    sumAt (shiftTerms (kt, ct) q) m
      = if kt ≤ m then ct * sumAt q (m - kt) else 0 := by
  induction q with
  | nil =>
    simp only [shiftTerms, List.map_nil, sumAt]
    split <;> ring
  | cons kc2 rest ih =>
    simp only [shiftTerms, List.map_cons, sumAt] at ih ⊢
    rw [ih]
    by_cases h : kt ≤ m
    · rw [if_pos h, if_pos h]
      by_cases h2 : kc2.1 = m - kt
      · rw [if_pos h2, if_pos (by omega : kt + kc2.1 = m)]
        ring
      · rw [if_neg h2, if_neg (by omega : ¬ kt + kc2.1 = m)]
        ring
    · rw [if_neg h, if_neg h, if_neg (by omega : ¬ kt + kc2.1 = m)]
      ring

/-- Multiplying by a single-term polynomial shifts and scales the lookup. -/
theorem get_mul_single {q : Poly α} (hq : PolySorted q) (kt : Nat) (ct : α) (m : Nat) :
    getCoefficientAt (mulPoly [(kt, ct)] q) m
      = if kt ≤ m then ct * getCoefficientAt q (m - kt) else 0 := by
  rw [get_mulPoly]
  simp only [convSum, List.map_cons, List.map_nil, List.sum_cons, List.sum_nil]
  rw [sumAt_shiftTerms, sumAt_eq_get hq]
  split <;> ring

/-- `sumAt` of a shifted list factors out the scalar. -/
theorem sumAt_shift_factor (k : Nat) (c : α) (q : List (Nat × α)) (m : Nat) :
    sumAt (shiftTerms (k, c) q) m = c * sumAt (shiftTerms (k, 1) q) m := by
  rw [sumAt_shiftTerms, sumAt_shiftTerms]
  split <;> ring

/-- The convolution contribution as a weighted sum over the left entries. -/
theorem convSum_eq_weighted (P q : List (Nat × α)) (m : Nat) :
    convSum P q m = (P.map fun kc => kc.2 * sumAt (shiftTerms (kc.1, 1) q) m).sum := by
  unfold convSum
  congr 1
  apply List.map_congr_left
  intro kc _
  have : kc = (kc.1, kc.2) := rfl
  rw [this, sumAt_shift_factor]

theorem sumG_removeEntry {Q : Poly α} (hQ : PolySorted Q) (G : Nat → α) (kt : Nat) :
    ((removeEntry kt Q).map fun kc => kc.2 * G kc.1).sum
      = (Q.map fun kc => kc.2 * G kc.1).sum - getCoefficientAt Q kt * G kt := by
  induction Q with
  | nil => simp [removeEntry, getCoefficientAt]
  | cons e rest ih =>
    rcases List.pairwise_cons.mp hQ with ⟨he, hrest⟩
    simp only [removeEntry]
    split
    · rename_i heq
      simp only [List.map_cons, List.sum_cons, getCoefficientAt]
      rw [if_pos (by omega : e.1 = kt)]
      rw [← heq]
      ring
    · rename_i hne
      simp only [List.map_cons, List.sum_cons, getCoefficientAt]
      rw [if_neg (by omega : ¬ e.1 = kt), ih hrest]
      ring

theorem sumG_insertEntry {Q : Poly α} (hQ : PolySorted Q) (G : Nat → α) (kt : Nat) (v : α) :
    ((insertEntry kt v Q).map fun kc => kc.2 * G kc.1).sum
      = (Q.map fun kc => kc.2 * G kc.1).sum + (v - getCoefficientAt Q kt) * G kt := by
  induction Q with
  | nil => simp [insertEntry, getCoefficientAt]
  | cons e rest ih =>
    rcases List.pairwise_cons.mp hQ with ⟨he, hrest⟩
    simp only [insertEntry]
    split
    · rename_i hlt
      have hz : getCoefficientAt (e :: rest) kt = 0 :=
        getCoefficientAt_eq_zero_of_not_mem fun e' he' => by
          rcases List.mem_cons.mp he' with h | h
          · rw [h]; omega
          · have := he e' h; omega
      rw [hz]
      simp only [List.map_cons, List.sum_cons]
      ring
    · split
      · rename_i hnlt heq
        simp only [List.map_cons, List.sum_cons, getCoefficientAt]
        rw [if_pos (by omega : e.1 = kt), ← heq]
        ring
      · rename_i hnlt hne
        simp only [List.map_cons, List.sum_cons, getCoefficientAt]
        rw [if_neg (by omega : ¬ e.1 = kt), ih hrest]
        ring

theorem sumG_setCoefficientAt {Q : Poly α} (hQ : PolySorted Q) (G : Nat → α)
    (kt : Nat) (v : α) :
    ((setCoefficientAt Q kt v).map fun kc => kc.2 * G kc.1).sum
      = (Q.map fun kc => kc.2 * G kc.1).sum + (v - getCoefficientAt Q kt) * G kt := by
  unfold setCoefficientAt
  split
  · rename_i hv
    rw [sumG_removeEntry hQ G kt, hv]
    ring
  · rw [sumG_insertEntry hQ G kt v]

/-- Pointwise left-additivity of the convolution in a single accumulated
term: multiplying after `add_coefficient_at` adds the single-term product. -/
theorem get_mul_addCoeff {Q q : Poly α} (hQ : PolySorted Q) (kt : Nat) (ct : α) (m : Nat) :
    getCoefficientAt (mulPoly (addCoefficientAt Q kt ct) q) m
      = getCoefficientAt (mulPoly Q q) m + getCoefficientAt (mulPoly [(kt, ct)] q) m := by
  rw [get_mulPoly, get_mulPoly, get_mulPoly]
  rw [convSum_eq_weighted, convSum_eq_weighted, convSum_eq_weighted]
  unfold addCoefficientAt
  rw [sumG_setCoefficientAt hQ (fun k => sumAt (shiftTerms (k, 1) q) m) kt
    (getCoefficientAt Q kt + ct)]
  simp only [List.map_cons, List.map_nil, List.sum_cons, List.sum_nil]
  rw [sumAt_shift_factor]
  ring

theorem removeEntry_eq_of_not_mem {k : Nat} {p : Poly α}
    (h : ∀ e ∈ p, e.1 ≠ k) : removeEntry k p = p := by
  induction p with
  | nil => rfl
  | cons e rest ih =>
    simp only [removeEntry]
    rw [if_neg (by have := h e (List.mem_cons_self e rest); omega)]
    rw [ih fun e' he' => h e' (List.mem_cons_of_mem e he')]

theorem insertEntry_head {k : Nat} {c : α} {p : Poly α}
    (h : ∀ e ∈ p, k < e.1) : insertEntry k c p = (k, c) :: p := by
  cases p with
  | nil => rfl
  | cons e rest =>
    simp only [insertEntry]
    rw [if_pos (h e (List.mem_cons_self e rest))]

theorem filterNZ_nil : filterNZ ([] : List (Nat × α)) = [] := rfl

theorem filterNZ_cons_keep {k : Nat} {c : α} {l : List (Nat × α)} (hc : c ≠ 0) :
    filterNZ ((k, c) :: l) = (k, c) :: filterNZ l := by
  simp [filterNZ, hc]

theorem filterNZ_cons_drop {k : Nat} {c : α} {l : List (Nat × α)} (hc : c = 0) :
    filterNZ ((k, c) :: l) = filterNZ l := by
  simp [filterNZ, hc]

theorem descPairs_cons (k : Nat) (c : α) (t : List α) :
    descPairs k (c :: t) = (k, c) :: descPairs (k - 1) t := rfl

theorem descPairs_length_cons (c : α) (t : List α) :
    descPairs ((c :: t).length - 1) (c :: t) = (t.length, c) :: descPairs (t.length - 1) t := by
  simp [descPairs]

/-- `from_coefficients` processes the descending pairs through `set`; with
keys strictly above the processed range, the nonzero entries pile up in
front in ascending order. -/
theorem foldSet_descPairs :
    ∀ (v : List α) (k : Nat) (p : Poly α), PolySorted p → (∀ e ∈ p, k < e.1) →
      v.length ≤ k + 1 →
      (descPairs k v).foldl (fun p kc => setCoefficientAt p kc.1 kc.2) p
        = (filterNZ (descPairs k v)).reverse ++ p := by
  intro v
  induction v with
  | nil => intro k p _ _ _; simp [descPairs, filterNZ]
  | cons c t ih =>
    intro k p hsort hkeys hlen
    rw [descPairs_cons]
    have hstep : ((k, c) :: descPairs (k - 1) t).foldl
        (fun p kc => setCoefficientAt p kc.1 kc.2) p
        = (descPairs (k - 1) t).foldl (fun p kc => setCoefficientAt p kc.1 kc.2)
            (setCoefficientAt p k c) := rfl
    rw [hstep]
    by_cases hc : c = 0
    · have hset : setCoefficientAt p k c = p := by
        unfold setCoefficientAt
        rw [if_pos hc]
        exact removeEntry_eq_of_not_mem fun e he => by have := hkeys e he; omega
      rw [hset, filterNZ_cons_drop hc]
      cases t with
      | nil => simp [descPairs, filterNZ]
      | cons c' t' =>
        have hk1 : 1 ≤ k := by
          simp only [List.length_cons] at hlen
          omega
        apply ih (k - 1) p hsort
        · intro e he; have := hkeys e he; omega
        · simp only [List.length_cons] at hlen ⊢
          omega
    · have hset : setCoefficientAt p k c = (k, c) :: p := by
        unfold setCoefficientAt
        rw [if_neg hc]
        exact insertEntry_head hkeys
      rw [hset, filterNZ_cons_keep hc]
      cases t with
      | nil =>
        simp [descPairs, filterNZ]
      | cons c' t' =>
        have hk1 : 1 ≤ k := by
          simp only [List.length_cons] at hlen
          omega
        have hrec := ih (k - 1) ((k, c) :: p)
          (List.pairwise_cons.mpr ⟨fun e he => hkeys e he, hsort⟩)
          (fun e he => by
            rcases List.mem_cons.mp he with h | h
            · rw [h]; omega
            · have := hkeys e h; omega)
          (by simp only [List.length_cons] at hlen ⊢; omega)
        rw [hrec, List.reverse_cons, List.append_assoc]
        rfl

/-- The store built by `from_coefficients`: the nonzero descending pairs,
reversed into ascending order. -/
theorem fromCoefficients_eq (v : List α) :
    fromCoefficients v = (filterNZ (descPairs (v.length - 1) v)).reverse := by
  unfold fromCoefficients
  rw [foldSet_descPairs v (v.length - 1) zeroPoly sorted_nil
    (by intro e he; simp [zeroPoly] at he)
    (by cases v <;> simp)]
  simp [zeroPoly]

theorem getCoefficientsGo_nil_none :
    getCoefficientsGo (α := α) none [] = [] := rfl

theorem getCoefficientsGo_nil_some (k : Nat) :
    getCoefficientsGo (α := α) (some k) []
      = if 0 < k then List.replicate k 0 else [] := rfl

theorem getCoefficientsGo_nil_some' (k : Nat) :
    getCoefficientsGo (α := α) (some k) [] = List.replicate k 0 := by
  rw [getCoefficientsGo_nil_some]
  by_cases h : 0 < k
  · rw [if_pos h]
  · rw [if_neg h]
    have : k = 0 := by omega
    rw [this]
    rfl

theorem getCoefficientsGo_cons (last : Option Nat) (power : Nat) (c : α)
    (rest : List (Nat × α)) :
    getCoefficientsGo last ((power, c) :: rest)
      = (match last with
         | some lp => List.replicate (lp - power - 1) 0
         | none => []) ++ c :: getCoefficientsGo (some power) rest := rfl

/-- The descending walk over the nonzero entries of a dense suffix rebuilds
the suffix, preceded by the gap zeros down from the previous exponent. -/
theorem getCoefficientsGo_descPairs :
    ∀ (v : List α) (last : Nat), v.length ≤ last →
      getCoefficientsGo (some last) (filterNZ (descPairs (v.length - 1) v))
        = List.replicate (last - v.length) 0 ++ v := by
  intro v
  induction v with
  | nil =>
    intro last _
    simp only [descPairs, filterNZ_nil, getCoefficientsGo_nil_some']
    simp
  | cons c t ih =>
    intro last hlen
    rw [descPairs_length_cons]
    by_cases hc : c = 0
    · rw [filterNZ_cons_drop hc]
      have h1 : t.length ≤ last := by
        simp only [List.length_cons] at hlen
        omega
      rw [ih last h1]
      have h2 : last - t.length = (last - (c :: t).length) + 1 := by
        simp only [List.length_cons]
        simp only [List.length_cons] at hlen
        omega
      rw [h2, List.replicate_succ', List.append_assoc, hc]
      rfl
    · rw [filterNZ_cons_keep hc, getCoefficientsGo_cons]
      rw [ih t.length (le_refl _)]
      have h3 : t.length - t.length = 0 := by omega
      rw [h3]
      simp only [List.replicate, List.nil_append, List.length_cons]
      have h4 : last - t.length - 1 = last - (t.length + 1) := by omega
      rw [h4]

/-- **C6.** Dense round-trip: converting a coefficient vector with nonzero
leading entry to a polynomial and back yields the vector, with skipped
intermediate exponents and trailing low-order zeros re-inserted as zeros; the
zero polynomial converts to the empty sequence. -/
theorem claim_C6 :
    (∀ (c : α) (t : List α), c ≠ 0 →
        getCoefficients (fromCoefficients (c :: t)) = c :: t) ∧
    getCoefficients (zeroPoly : Poly α) = [] := by
  constructor
  · intro c t hc
    unfold getCoefficients
    rw [fromCoefficients_eq, List.reverse_reverse, descPairs_length_cons,
      filterNZ_cons_keep hc, getCoefficientsGo_cons]
    rw [getCoefficientsGo_descPairs t t.length (le_refl _)]
    have h3 : t.length - t.length = 0 := by omega
    rw [h3]
    rfl
  · rfl

/-- Witness for C6 at a concrete vector with a gap and a trailing zero. -/
theorem claim_C6_witness :
    getCoefficients (fromCoefficients ((3 : ℤ) :: [0, 2, 0])) = (3 : ℤ) :: [0, 2, 0] :=
  (claim_C6.1) 3 [0, 2, 0] (by decide)

theorem polyInv_foldSet {p : Poly α} (hp : PolyInv p) (l : List (Nat × α)) :
    PolyInv (l.foldl (fun p kc => setCoefficientAt p kc.1 kc.2) p) := by
  induction l generalizing p with
  | nil => exact hp
  | cons kc rest ih => exact ih (polyInv_setCoefficientAt hp)

theorem polyInv_fromCoefficients (v : List α) : PolyInv (fromCoefficients v) :=
  polyInv_foldSet polyInv_nil _

theorem polyInv_mapCoeff {p : Poly α} (g : Nat → α → α)
    (hg : ∀ k c, c ≠ 0 → g k c ≠ 0) (hp : PolyInv p) :
    PolyInv (p.map fun kc => (kc.1, g kc.1 kc.2)) := by
  constructor
  · exact List.Pairwise.map _ (fun a b h => h) hp.1
  · intro e he
    rcases List.mem_map.mp he with ⟨kc, hkc, rfl⟩
    exact hg kc.1 kc.2 (hp.2 kc hkc)

theorem polyInv_negPoly {p : Poly α} (hp : PolyInv p) :
    PolyInv (negPoly p) :=
  polyInv_mapCoeff (fun _ c => c * (-1))
    (fun _ c hc => by
      show c * (-1) ≠ 0
      rw [mul_neg_one]
      exact neg_ne_zero.mpr hc) hp

theorem polyInv_mulScalar {p : Poly α} [NoZeroDivisors α] (hp : PolyInv p) (s : α) :
    PolyInv (mulScalar p s) := by
  unfold mulScalar
  split
  · exact polyInv_nil
  · rename_i hs
    exact polyInv_mapCoeff (fun _ c => c * s) (fun _ c hc => mul_ne_zero hc hs) hp

theorem polyInv_derivFold :
    ∀ (l : List (Nat × α)) (acc : Poly α), PolyInv acc →
      PolyInv (l.foldl
        (fun acc kc =>
          if kc.1 < 1 then acc else setCoefficientAt acc (kc.1 - 1) (kc.2 * (kc.1 : α)))
        acc) := by
  intro l
  induction l with
  | nil => exact fun acc h => h
  | cons kc rest ih =>
    intro acc hacc
    have hstep : PolyInv (if kc.1 < 1 then acc
        else setCoefficientAt acc (kc.1 - 1) (kc.2 * (kc.1 : α))) := by
      split
      · exact hacc
      · exact polyInv_setCoefficientAt hacc
    exact ih _ hstep

theorem polyInv_derivative (p : Poly α) : PolyInv (derivative p) :=
  polyInv_derivFold p zeroPoly polyInv_nil

theorem polyInv_fromStrGeneric (parseCoef : List Char → Option α) {s : List Char}
    {r : Poly α} (h : fromStrGeneric parseCoef s = some r) : PolyInv r := by
  unfold fromStrGeneric at h
  split at h
  · cases h
    exact polyInv_nil
  · cases hts : fromStrTerms parseCoef (s.filter fun c => !(rustWhitespace c)) with
    | none => rw [hts] at h; cases h
    | some ts =>
      rw [hts] at h
      simp only [Option.map_some'] at h
      cases h
      exact polyInv_foldAddTerms polyInv_nil ts

/-- **C9.** Rendering the polynomial built from the dense coefficients
`[1, 1, -2]` in the Standard format yields exactly `"x^2 + x - 2"`: the
coefficient 1 is elided on the two indeterminate terms, shown on the constant
term, and the leading positive term carries no sign. -/
theorem claim_C9 : renderStandardZStr (fromCoefficients [1, 1, -2]) = "x^2 + x - 2" := by
  decide

/-- **C10.** The generic parser accepts Latex-style curly braces around an
exponent: parsing `"x^{2}"` succeeds and yields the polynomial with
coefficient one at exponent 2, in both the integer and the `f64`-modelled
instantiations. -/
theorem claim_C10 :
    fromStrZ "x^\x7b2\x7d" = some [(2, 1)] ∧
    fromStrQ "x^\x7b2\x7d" = some [(2, 1)] := by
  constructor
  · decide
  · have hts : fromStrTerms parseF64Lit
        ("x^\x7b2\x7d".data.filter fun c => !(rustWhitespace c)) = some [(2, 1)] := by
      decide
    unfold fromStrQ fromStrGeneric
    rw [if_neg (by decide), hts]
    simp only [Option.map_some']
    norm_num [foldAddTerms, addCoefficientAt, getCoefficientAt, setCoefficientAt,
      insertEntry, zeroPoly]

/-- **C3** (code-bug exhibit): the legacy `from_string` of lib.rs does
reconstruct the matched substrings and rejects both `"2y^2 + 3y"` and
`"2x^2.5"`, but the generic `from_str` of polynomial/parsing.rs performs no
such leftover-character validation: it accepts both strings — contradicting
its own doc comment ("Only the character `x` may be used as an
indeterminate") and the spec.  Over an integer domain the accepted garbage
for `"2y^2 + 3y"` is the store `{0 ↦ 6, 2 ↦ 1}`: the scan yields the terms
`+2` (coefficient), `^2` (bare exponent, coefficient defaulting to one),
`+3`, and a final empty match contributing `+1` at exponent 0. -/
theorem claim_C3 :
    fromString "2y^2 + 3y" = none ∧
    fromString "2x^2.5" = none ∧
    (fromStrQ "2y^2 + 3y").isSome = true ∧
    (fromStrQ "2x^2.5").isSome = true ∧
    fromStrZ "2y^2 + 3y" = some [(0, 6), (2, 1)] := by
  refine ⟨?_, ?_, ?_, ?_, ?_⟩ <;> decide

/-- **C7** counterexample to the claim as stated: the legacy `from_string` of
lib.rs (a cited source of the claim) stores each matched term with
`set_coefficient_at`, so repeated terms of the same exponent overwrite rather
than accumulate: `"x + x"` parses to the store `{1 ↦ 1}` — coefficient 1, not
the sum `1 + 1` of the two signed term coefficients. -/
theorem claim_C7_counterexample :
    fromString "x + x" = some [(1, 1)] ∧ ¬ ((1 : ℚ) + 1 = 1) := by
  constructor
  · decide
  · norm_num

/-- **C7** (amended): the *generic* `from_str` parser accumulates repeated
exponents by addition — its result is the `add_coefficient_at` fold of the
matched term list, and the stored coefficient at every exponent is the sum of
the signed coefficients of all matched terms with that exponent; the legacy
`from_string` instead overwrites with the last term (see the
counterexample). -/
theorem claim_C7 (parseCoef : List Char → Option α) {s : List Char}
    {ts : List (Nat × α)}
    (hts : fromStrTerms parseCoef (s.filter fun c => !(rustWhitespace c)) = some ts)
    (hne : s.filter (fun c => !(rustWhitespace c)) ≠ []) :
    fromStrGeneric parseCoef s = some (foldAddTerms zeroPoly ts) ∧
    ∀ e, getCoefficientAt (foldAddTerms zeroPoly ts) e = sumAt ts e := by
  constructor
  · unfold fromStrGeneric
    rw [if_neg hne, hts]
    rfl
  · intro e
    rw [zeroPoly_def, get_foldAddTerms sorted_nil ts e]
    simp [getCoefficientAt]

/-- Witness for C7: `"x + x"` parses (generically, over `ℤ`) to the fold of
the two matched terms, and the stored coefficient at exponent 1 is their
sum. -/
theorem claim_C7_witness :
    fromStrTerms (α := ℤ) parseIntLit
        ("x + x".data.filter fun c => !(rustWhitespace c)) = some [(1, 1), (1, 1)] ∧
    ("x + x".data.filter fun c => !(rustWhitespace c)) ≠ [] ∧
    (fromStrGeneric parseIntLit "x + x".data
        = some (foldAddTerms zeroPoly [(1, 1), (1, 1)]) ∧
      ∀ e, getCoefficientAt (foldAddTerms (zeroPoly : Poly ℤ) [(1, 1), (1, 1)]) e
        = sumAt [(1, 1), (1, 1)] e) :=
  ⟨by decide, by decide, claim_C7 parseIntLit (by decide) (by decide)⟩

/-- **C2** (code-bug exhibit): the sparse Horner loop of `evaluate` multiplies
the accumulator by `x^gap` only *between* stored terms and never by `x` raised
to the lowest stored exponent after the final iteration.  On the polynomial
`x` — the valid sparse store with coefficient 1 at exponent 1 — evaluated at
`x = 2`, the code returns `1`, whereas the direct power-sum
`Σ coefficient * x^power` over the stored terms, which the claim says
`evaluate` equals, yields `2`. -/
theorem claim_C2 :
    PolyInv ([(1, 1)] : Poly ℤ) ∧
    evaluate ([(1, 1)] : Poly ℤ) 2 = 1 ∧
    naiveEval ([(1, 1)] : Poly ℤ) 2 = 2 ∧
    evaluate ([(1, 1)] : Poly ℤ) 2 ≠ naiveEval ([(1, 1)] : Poly ℤ) 2 := by
  refine ⟨by decide, ?_, ?_, ?_⟩ <;> decide

theorem sumAt_append (l1 l2 : List (Nat × α)) (m : Nat) :
    sumAt (l1 ++ l2) m = sumAt l1 m + sumAt l2 m := by
  induction l1 with
  | nil =>
    show sumAt l2 m = sumAt ([] : List (Nat × α)) m + sumAt l2 m
    rw [show sumAt ([] : List (Nat × α)) m = 0 from rfl, zero_add]
  | cons kc rest ih =>
    show (if kc.1 = m then kc.2 else 0) + sumAt (rest ++ l2) m
      = ((if kc.1 = m then kc.2 else 0) + sumAt rest m) + sumAt l2 m
    rw [ih, add_assoc]

theorem sumAt_reverse (l : List (Nat × α)) (m : Nat) :
    sumAt l.reverse m = sumAt l m := by
  induction l with
  | nil => rfl
  | cons kc rest ih =>
    rw [List.reverse_cons, sumAt_append, ih]
    show sumAt rest m + ((if kc.1 = m then kc.2 else 0) + sumAt ([] : List (Nat × α)) m)
      = (if kc.1 = m then kc.2 else 0) + sumAt rest m
    rw [show sumAt ([] : List (Nat × α)) m = 0 from rfl]
    ring

/-- C4: over the integers — a domain with a faithful literal rendering — the
Standard dialect round-trips: parsing `write_to_fmt`'s output with `from_str`
returns exactly the polynomial that was rendered. -/
theorem claim_C4 {p : Poly ℤ} (hp : PolyInv p) :
    fromStrZ (renderStandardZStr p) = some p := by
  by_cases hne : p = []
  · subst hne
    rfl
  · obtain ⟨d, hd⟩ := degOpt_isSome hne
    have hle := key_le_deg hp.1 hd
    have hnz : ∀ kc ∈ p.reverse, kc.2 ≠ 0 := fun kc hk => hp.2 kc (List.mem_reverse.mp hk)
    have hdesc : p.reverse.Pairwise (fun a b => b.1 < a.1) := by
      rw [List.pairwise_reverse]
      exact hp.1
    have hlerev : ∀ kc ∈ p.reverse, kc.1 ≤ d := fun kc hk => hle kc (List.mem_reverse.mp hk)
    obtain ⟨capsL, hcm, heval⟩ := chunksMatch_exists p.reverse d hnz hdesc hlerev
    have hrevne : p.reverse ≠ [] := fun h => hne (List.reverse_eq_nil_iff.mp h)
    have hchunksne : chunksOf d p.reverse ≠ [] := by
      cases hrev : p.reverse with
      | nil => exact absurd hrev hrevne
      | cons e tl =>
        rw [show chunksOf d (e :: tl)
          = chunkStr e.2 e.1 (e.1 = d) :: chunksOf d tl from rfl]
        exact List.cons_ne_nil _ _
    have hstrip := strip_render hd hnz
    have hflatne : (chunksOf d p.reverse).flatten ≠ [] := by
      cases hc : chunksOf d p.reverse with
      | nil => exact absurd hc hchunksne
      | cons a l =>
        have hane : a ≠ [] :=
          chunksMatch_ne_nil _ capsL (hc ▸ hcm) a (List.mem_cons_self a l)
        rw [List.flatten_cons]
        intro h
        exact hane (List.append_eq_nil.mp h).1
    show fromStrGeneric parseIntLit (renderStandardZStr p).data = some p
    rw [show (renderStandardZStr p).data = renderStandardZ p from rfl]
    unfold fromStrGeneric
    rw [hstrip, if_neg hflatne]
    unfold fromStrTerms
    rw [termCapsList_chunks _ capsL hcm hchunksne, heval, Option.map_some']
    congr 1
    apply poly_ext (polyInv_foldAddTerms polyInv_nil p.reverse) hp
    intro e
    rw [get_foldAddTerms sorted_nil p.reverse e,
      getCoefficientAt_nil, sumAt_reverse, sumAt_eq_get hp.1, zero_add]

theorem claim_C4_witness :
    PolyInv [(1, (2 : ℤ)), (3, -1)] ∧
      fromStrZ (renderStandardZStr [(1, (2 : ℤ)), (3, -1)]) = some [(1, 2), (3, -1)] :=
  ⟨by decide, claim_C4 (by decide)⟩

end CoreTheorems

section DivisionTheorems

variable {α : Type} [Field α] [DecidableEq α]

theorem polyInv_divCoefficientAt {p : Poly α} {k : Nat} {c : α} (hp : PolyInv p) :
    PolyInv (divCoefficientAt p k c) := polyInv_setCoefficientAt hp

theorem divideLoop_succ (D : Poly α) (f : Nat) (R Q : Poly α) :
    divideLoop D (f + 1) R Q
      = if R = [] then some (Q, R)
        else if (degOpt R).getD 0 < (degOpt D).getD 0 then some (Q, R)
        else
          divideLoop D f
            (subPoly R (mulPoly (divideTerms (leadingTermP R) (leadingTermP D)) D))
            (addPoly Q (divideTerms (leadingTermP R) (leadingTermP D))) := rfl

theorem divideTerms_single {t1 t2 : Nat × α} (h : t1.2 / t2.2 ≠ 0) :
    divideTerms t1 t2 = [(t1.1 - t2.1, t1.2 / t2.2)] := by
  unfold divideTerms setCoefficientAt zeroPoly
  rw [if_neg h]
  rfl

/-- Full specification of the `divide_in_place` loop: with enough fuel it
returns, preserves the invariants, maintains `Q*D + R` pointwise, and stops
with a zero remainder or one of degree below the divisor's. -/
theorem divideLoop_spec {D : Poly α} (hD : PolyInv D) (hDne : D ≠ []) :
    ∀ fuel (R Q : Poly α), PolyInv R → PolyInv Q →
      1 ≤ fuel → (R ≠ [] → (degOpt R).getD 0 + 2 ≤ fuel) →
      ∃ Q' R', divideLoop D fuel R Q = some (Q', R') ∧ PolyInv Q' ∧ PolyInv R' ∧
        (∀ m, getCoefficientAt (mulPoly Q' D) m + getCoefficientAt R' m
            = getCoefficientAt (mulPoly Q D) m + getCoefficientAt R m) ∧
        (R' = [] ∨ ∃ dr dd, degOpt R' = some dr ∧ degOpt D = some dd ∧ dr < dd) := by
  intro fuel
  induction fuel with
  | zero => intro R Q _ _ h1 _; omega
  | succ f ih =>
    intro R Q hR hQ _ hfuel
    by_cases hRnil : R = []
    · refine ⟨Q, R, ?_, hQ, hR, fun m => rfl, Or.inl hRnil⟩
      rw [divideLoop_succ, if_pos hRnil]
    · obtain ⟨r, hr⟩ := degOpt_isSome hRnil
      obtain ⟨dD, hdD⟩ := degOpt_isSome hDne
      by_cases hdeg : (degOpt R).getD 0 < (degOpt D).getD 0
      · refine ⟨Q, R, ?_, hQ, hR, fun m => rfl, Or.inr ⟨r, dD, hr, hdD, ?_⟩⟩
        · rw [divideLoop_succ, if_neg hRnil, if_pos hdeg]
        · rw [hr, hdD] at hdeg
          simpa using hdeg
      · -- one division step
        have hrge : dD ≤ r := by
          rw [hr, hdD] at hdeg
          simpa using hdeg
        have hlcR : getCoefficientAt R r ≠ 0 := get_deg_ne_zero hR hr
        have hlcD : getCoefficientAt D dD ≠ 0 := get_deg_ne_zero hD hdD
        have hct : getCoefficientAt R r / getCoefficientAt D dD ≠ 0 :=
          div_ne_zero hlcR hlcD
        have hleadR : leadingTermP R = (r, getCoefficientAt R r) := by
          unfold leadingTermP
          rw [hr]
          rfl
        have hleadD : leadingTermP D = (dD, getCoefficientAt D dD) := by
          unfold leadingTermP
          rw [hdD]
          rfl
        have ht : divideTerms (leadingTermP R) (leadingTermP D)
            = [(r - dD, getCoefficientAt R r / getCoefficientAt D dD)] := by
          rw [hleadR, hleadD]
          exact divideTerms_single hct
        set kt := r - dD with hkt
        set ct := getCoefficientAt R r / getCoefficientAt D dD with hctdef
        have hstep : divideLoop D (f + 1) R Q
            = divideLoop D f
                (subPoly R (mulPoly (divideTerms (leadingTermP R) (leadingTermP D)) D))
                (addPoly Q (divideTerms (leadingTermP R) (leadingTermP D))) := by
          rw [divideLoop_succ, if_neg hRnil, if_neg hdeg]
        set R' := subPoly R (mulPoly (divideTerms (leadingTermP R) (leadingTermP D)) D)
          with hRdefn
        set Q' := addPoly Q (divideTerms (leadingTermP R) (leadingTermP D)) with hQdefn
        have hR'inv : PolyInv R' := polyInv_subPoly hR _
        have hQ'inv : PolyInv Q' := polyInv_addPoly hQ _
        have hQ'add : Q' = addCoefficientAt Q kt ct := by
          rw [hQdefn, ht]
          rfl
        -- pointwise value of the subtracted product
        have hprod : ∀ m, getCoefficientAt
            (mulPoly (divideTerms (leadingTermP R) (leadingTermP D)) D) m
            = if kt ≤ m then ct * getCoefficientAt D (m - kt) else 0 := by
          intro m
          rw [ht]
          exact get_mul_single hD.1 kt ct m
        have hR'get : ∀ m, getCoefficientAt R' m
            = getCoefficientAt R m
              - (if kt ≤ m then ct * getCoefficientAt D (m - kt) else 0) := by
          intro m
          rw [hRdefn, get_subPoly hR.1 (polyInv_mulPoly _ D).1, hprod]
        -- every coefficient at or above `r` is cancelled
        have hhigh : ∀ m, r ≤ m → getCoefficientAt R' m = 0 := by
          intro m hm
          rcases Nat.eq_or_lt_of_le hm with hmr | hmr
          · rw [hR'get, ← hmr, if_pos (by omega : kt ≤ r)]
            have hsub : r - kt = dD := by omega
            rw [hsub, hctdef, div_mul_cancel₀ _ hlcD]
            ring
          · rw [hR'get, get_eq_zero_of_deg_lt hR.1 hr hmr,
              if_pos (by omega : kt ≤ m)]
            rw [get_eq_zero_of_deg_lt hD.1 hdD (by omega : dD < m - kt)]
            ring
        have hdrop := deg_lt_of_high_coeffs_zero hR'inv hhigh
        -- fuel accounting for the recursive call
        have hfuel1 : 1 ≤ f := by
          have := hfuel hRnil
          rw [hr] at this
          simp only [Option.getD_some] at this
          omega
        have hfuel2 : R' ≠ [] → (degOpt R').getD 0 + 2 ≤ f := by
          intro hne
          rcases hdrop with h | ⟨d', hd', hlt⟩
          · exact absurd h hne
          · have := hfuel hRnil
            rw [hr] at this
            rw [hd']
            simp only [Option.getD_some] at this ⊢
            omega
        obtain ⟨Q'', R'', heq, hQ''inv, hR''inv, hinv, hterm⟩ :=
          ih R' Q' hR'inv hQ'inv hfuel1 hfuel2
        refine ⟨Q'', R'', ?_, hQ''inv, hR''inv, ?_, hterm⟩
        · rw [hstep, heq]
        · intro m
          rw [hinv m]
          have hQ'mul : getCoefficientAt (mulPoly Q' D) m
              = getCoefficientAt (mulPoly Q D) m
                + getCoefficientAt (mulPoly [(kt, ct)] D) m := by
            rw [hQ'add]
            exact get_mul_addCoeff hQ.1 kt ct m
          rw [hQ'mul, hR'get, get_mul_single hD.1 kt ct m]
          ring

/-- `Div<&Self>` correctness: for a nonzero divisor the division succeeds and
returns `(quotient, remainder)` with `quotient*D + remainder == N` and the
remainder zero or of degree strictly below the divisor's. -/
theorem dividePoly_correct {N D : Poly α} (hN : PolyInv N) (hD : PolyInv D)
    (hDne : D ≠ []) :
    ∃ Q R, dividePoly N D = some (Q, R) ∧ addPoly (mulPoly Q D) R = N ∧
      (R = [] ∨ ∃ dr dd, degOpt R = some dr ∧ degOpt D = some dd ∧ dr < dd) := by
  obtain ⟨Q, R, heq, hQinv, hRinv, hinv, hterm⟩ :=
    divideLoop_spec hD hDne ((degOpt N).getD 0 + 2) N zeroPoly hN polyInv_nil
      (by omega) (fun _ => by omega)
  refine ⟨Q, R, ?_, ?_, hterm⟩
  · unfold dividePoly
    rw [if_neg hDne, heq]
  · apply poly_ext (polyInv_addPoly (polyInv_mulPoly Q D) R) hN
    intro m
    rw [get_addPoly (polyInv_mulPoly Q D).1 hRinv.1, hinv m]
    have : getCoefficientAt (mulPoly (zeroPoly : Poly α) D) m = 0 := by
      rw [get_mulPoly]
      rfl
    rw [this]
    ring

/-- **C1.** For every polynomial `N` and every nonzero polynomial `D` (valid
sparse stores over the coefficient field), `Div<&Self>` division yields a
quotient `Q` and remainder `R` with `Q*D + R == N` (using the crate's `Mul`
and `Add`), and either `R` is the zero polynomial or
`degree(R) < degree(D)`. -/
theorem claim_C1 {N D : Poly α} (hN : PolyInv N) (hD : PolyInv D) (hDne : D ≠ []) :
    ∃ Q R, dividePoly N D = some (Q, R) ∧ addPoly (mulPoly Q D) R = N ∧
      (R = [] ∨ ∃ dr dd, degOpt R = some dr ∧ degOpt D = some dd ∧ dr < dd) :=
  dividePoly_correct hN hD hDne

/-- Witness for C1 at the crate's own division test vector:
`(-4x^4 + 12x^3 - 21x^2 + 19x) / (2x^2 - 3x + 5)`. -/
theorem claim_C1_witness :
    PolyInv ([(1, (19 : ℚ)), (2, -21), (3, 12), (4, -4)] : Poly ℚ) ∧
    PolyInv ([(0, (5 : ℚ)), (1, -3), (2, 2)] : Poly ℚ) ∧
    ([(0, (5 : ℚ)), (1, -3), (2, 2)] : Poly ℚ) ≠ [] ∧
    (∃ Q R, dividePoly ([(1, (19 : ℚ)), (2, -21), (3, 12), (4, -4)] : Poly ℚ)
          [(0, 5), (1, -3), (2, 2)] = some (Q, R) ∧
        addPoly (mulPoly Q [(0, 5), (1, -3), (2, 2)]) R
          = [(1, (19 : ℚ)), (2, -21), (3, 12), (4, -4)] ∧
        (R = [] ∨ ∃ dr dd, degOpt R = some dr
            ∧ degOpt ([(0, (5 : ℚ)), (1, -3), (2, 2)] : Poly ℚ) = some dd ∧ dr < dd)) :=
  ⟨by decide, by decide, by decide, claim_C1 (by decide) (by decide) (by decide)⟩

/-- **C8** (amended): polynomial-by-polynomial division fails exactly when the
divisor is the zero polynomial — the check precedes the loop, so nothing else
runs first — and the *checked* scalar division `divide_by_scalar_in_place`
of division.rs fails exactly when the scalar is zero.  (The claim as stated
is falsified by the legacy unchecked `Div<f64>` of lib.rs, see the
counterexample.) -/
theorem claim_C8 {N D q : Poly α} {s : α} (hN : PolyInv N) (hD : PolyInv D) :
    (dividePoly N D = none ↔ D = []) ∧
    (divideByScalarInPlace q s = none ↔ s = 0) := by
  constructor
  · constructor
    · intro h
      by_contra hne
      obtain ⟨Q, R, heq, -, -⟩ := dividePoly_correct hN hD hne
      rw [heq] at h
      exact Option.noConfusion h
    · intro h
      unfold dividePoly
      rw [if_pos h]
  · constructor
    · intro h
      by_contra hs
      unfold divideByScalarInPlace at h
      rw [if_neg hs] at h
      exact Option.noConfusion h
    · intro h
      unfold divideByScalarInPlace
      rw [if_pos h]

/-- **C8** counterexample to the claim as stated: the legacy scalar division
`Div<f64>` of lib.rs (lines 293–302, one of the claim's cited symbols) has no
zero check and no failure path — dividing the constant polynomial `2` by the
scalar `0` returns a polynomial whose entry persists, holding the domain's
`2/0` value (IEEE infinity in the crate's `f64` instantiation), whereas the
checked `divide_by_scalar_in_place` of division.rs fails on the same input.
So "scalar division fails exactly on the zero scalar" is false for lib.rs. -/
theorem claim_C8_counterexample :
    divideByScalarInPlace ([(0, 2)] : Poly ℚ) 0 = none ∧
    oldDivScalar ([(0, 2)] : Poly ℚ) 0 = [(0, (2 : ℚ) / 0)] :=
  ⟨rfl, rfl⟩

theorem polyInv_divideByScalarInPlace {p r : Poly α} {s : α} (hp : PolyInv p)
    (h : divideByScalarInPlace p s = some r) : PolyInv r := by
  unfold divideByScalarInPlace at h
  split at h
  · cases h
  · rename_i hs
    cases h
    exact polyInv_mapCoeff (fun _ c => c / s) (fun _ c hc => div_ne_zero hc hs) hp

theorem polyInv_dividePoly {N D Q R : Poly α} (hN : PolyInv N) (hD : PolyInv D)
    (h : dividePoly N D = some (Q, R)) : PolyInv Q ∧ PolyInv R := by
  by_cases hDne : D = []
  · unfold dividePoly at h
    rw [if_pos hDne] at h
    cases h
  · obtain ⟨Q', R', heq, hQ', hR', -, -⟩ :=
      divideLoop_spec hD hDne ((degOpt N).getD 0 + 2) N zeroPoly hN polyInv_nil
        (by omega) (fun _ => by omega)
    unfold dividePoly at h
    rw [if_neg hDne, heq] at h
    obtain ⟨rfl, rfl⟩ : Q' = Q ∧ R' = R := by
      have h' : (Q', R') = (Q, R) := by injection h
      exact ⟨congrArg Prod.fst h', congrArg Prod.snd h'⟩
    exact ⟨hQ', hR'⟩

/-- **C5.** Sparsity (and ordering) invariant: every polynomial produced or
mutated by the public operations — zero and dense construction, the
`set`/`add`/`sub`/`mul`/`div` point mutators, the arithmetic operators
(addition, subtraction, negation, polynomial and scalar multiplication, the
checked scalar division, polynomial division), parsing and the derivative —
again satisfies the representation invariants: no stored coefficient equals
the domain's zero (any mutation producing a zero removes the entry), and
exponents stay strictly ordered. -/
theorem claim_C5 {p q N D : Poly α} {k : Nat} {c : α}
    (parseCoef : List Char → Option α) (str : List Char) (v : List α)
    (hp : PolyInv p) (hq : PolyInv q) (hN : PolyInv N) (hD : PolyInv D) :
    PolyInv (zeroPoly : Poly α) ∧
    PolyInv (fromCoefficients v) ∧
    PolyInv (setCoefficientAt p k c) ∧
    PolyInv (addCoefficientAt p k c) ∧
    PolyInv (subCoefficientAt p k c) ∧
    PolyInv (mulCoefficientAt p k c) ∧
    PolyInv (divCoefficientAt p k c) ∧
    PolyInv (addPoly p q) ∧
    PolyInv (subPoly p q) ∧
    PolyInv (mulPoly p q) ∧
    (∀ s : α, PolyInv (mulScalar p s)) ∧
    PolyInv (negPoly p) ∧
    (∀ (s : α) (r : Poly α), divideByScalarInPlace p s = some r → PolyInv r) ∧
    (∀ Q R : Poly α, dividePoly N D = some (Q, R) → PolyInv Q ∧ PolyInv R) ∧
    (∀ r : Poly α, fromStrGeneric parseCoef str = some r → PolyInv r) ∧
    PolyInv (derivative p) :=
  ⟨polyInv_nil, polyInv_fromCoefficients v, polyInv_setCoefficientAt hp,
    polyInv_addCoefficientAt hp, polyInv_subCoefficientAt hp,
    polyInv_mulCoefficientAt hp, polyInv_divCoefficientAt hp,
    polyInv_addPoly hp q, polyInv_subPoly hp q, polyInv_mulPoly p q,
    fun s => polyInv_mulScalar hp s, polyInv_negPoly hp,
    fun _ _ h => polyInv_divideByScalarInPlace hp h,
    fun _ _ h => polyInv_dividePoly hN hD h,
    fun _ h => polyInv_fromStrGeneric parseCoef h,
    polyInv_derivative p⟩

/-- Witness for C5 at concrete rational inputs. -/
theorem claim_C5_witness :
    PolyInv ([(0, (2 : ℚ)), (2, 3)] : Poly ℚ) ∧
    PolyInv ([(1, (-1 : ℚ))] : Poly ℚ) ∧
    (PolyInv (zeroPoly : Poly ℚ) ∧
     PolyInv (fromCoefficients [(1 : ℚ), 0, -2]) ∧
     PolyInv (setCoefficientAt [(0, (2 : ℚ)), (2, 3)] 2 (-3)) ∧
     PolyInv (addCoefficientAt [(0, (2 : ℚ)), (2, 3)] 2 (-3)) ∧
     PolyInv (subCoefficientAt [(0, (2 : ℚ)), (2, 3)] 2 (-3)) ∧
     PolyInv (mulCoefficientAt [(0, (2 : ℚ)), (2, 3)] 2 (-3)) ∧
     PolyInv (divCoefficientAt [(0, (2 : ℚ)), (2, 3)] 2 (-3)) ∧
     PolyInv (addPoly [(0, (2 : ℚ)), (2, 3)] [(1, -1)]) ∧
     PolyInv (subPoly [(0, (2 : ℚ)), (2, 3)] [(1, -1)]) ∧
     PolyInv (mulPoly [(0, (2 : ℚ)), (2, 3)] [(1, -1)]) ∧
     (∀ s : ℚ, PolyInv (mulScalar [(0, (2 : ℚ)), (2, 3)] s)) ∧
     PolyInv (negPoly [(0, (2 : ℚ)), (2, 3)]) ∧
     (∀ (s : ℚ) (r : Poly ℚ),
        divideByScalarInPlace [(0, (2 : ℚ)), (2, 3)] s = some r → PolyInv r) ∧
     (∀ Q R : Poly ℚ,
        dividePoly [(0, (2 : ℚ)), (2, 3)] [(1, (-1 : ℚ))] = some (Q, R)
          → PolyInv Q ∧ PolyInv R) ∧
     (∀ r : Poly ℚ, fromStrGeneric parseF64Lit "2x - 1".data = some r → PolyInv r) ∧
     PolyInv (derivative [(0, (2 : ℚ)), (2, 3)])) :=
  ⟨by decide, by decide,
    claim_C5 parseF64Lit "2x - 1".data [(1 : ℚ), 0, -2]
      (by decide) (by decide) (by decide) (by decide)⟩

/-- Witness for C8 at concrete inputs. -/
theorem claim_C8_witness :
    PolyInv ([(0, (1 : ℚ))] : Poly ℚ) ∧
    ((dividePoly ([(0, (1 : ℚ))] : Poly ℚ) [(0, (1 : ℚ))] = none
        ↔ ([(0, (1 : ℚ))] : Poly ℚ) = []) ∧
     (divideByScalarInPlace ([(0, (1 : ℚ))] : Poly ℚ) (3 : ℚ) = none ↔ (3 : ℚ) = 0)) :=
  ⟨by decide, claim_C8 (by decide) (by decide)⟩

end DivisionTheorems

end PolyLib
